import Mathlib

/-!
Shallow embedding of the x-importer content-assembly pipeline
(`src/x_importer/cache.py` and `src/x_importer/formatter.py`).

Modelling conventions:
* Python's duck-typed JSON dicts are modelled by the inductive type `J`.
  Python `dict`s are association lists; `jGet` looks up the last binding
  (matching `json.loads` duplicate-key semantics), `dictSet` implements
  `d[k] = v` (first-occurrence position, value overwritten).
* Instants are seconds since the Unix epoch as `Int`.  `Asia/Tokyo` is a
  fixed UTC+9 offset (no DST since 1951), so the local calendar day of an
  instant `t` is `(t + 32400).fdiv 86400` and ISO `created_at` strings are
  modelled as the integer instant they parse to (`J.jnum`); a post has a
  parseable `created_at` iff the field holds a number.  Calendar dates are
  identified with their day numbers (the `YYYY-MM-DD`/file-name renderings
  used by the code are injective images of the day number).
* Fallible Python code (KeyError, TypeError, AttributeError, raising out of
  the function) is modelled with `Option`: `none` is an uncaught exception.
-/

inductive J : Type where
  | jnull : J
  | jbool : Bool → J
  | jnum : Int → J
  | jstr : String → J
  | jarr : List J → J
  | jobj : List (String × J) → J

namespace J

mutual

/-- Structural equality of JSON values (Python `==` on parsed JSON data). -/
def jeq : J → J → Bool
  | jnull, jnull => true
  | jbool a, jbool b => a == b
  | jnum a, jnum b => a == b
  | jstr a, jstr b => a == b
  | jarr xs, jarr ys => jeqList xs ys
  | jobj xs, jobj ys => jeqFields xs ys
  | _, _ => false

def jeqList : List J → List J → Bool
  | [], [] => true
  | x :: xs, y :: ys => jeq x y && jeqList xs ys
  | _, _ => false

def jeqFields : List (String × J) → List (String × J) → Bool
  | [], [] => true
  | (k, v) :: xs, (k2, v2) :: ys => k == k2 && jeq v v2 && jeqFields xs ys
  | _, _ => false

end

mutual

theorem jeq_iff : ∀ a b : J, jeq a b = true ↔ a = b
  | jnull, jnull => by simp [jeq]
  | jbool a, jbool b => by simp [jeq]
  | jnum a, jnum b => by simp [jeq]
  | jstr a, jstr b => by simp [jeq]
  | jarr xs, jarr ys => by
      simp only [jeq, jeqList_iff xs ys]
      exact ⟨fun h => by rw [h], fun h => by injection h⟩
  | jobj xs, jobj ys => by
      simp only [jeq, jeqFields_iff xs ys]
      exact ⟨fun h => by rw [h], fun h => by injection h⟩
  | jnull, jbool _ | jnull, jnum _ | jnull, jstr _ | jnull, jarr _ | jnull, jobj _
  | jbool _, jnull | jbool _, jnum _ | jbool _, jstr _ | jbool _, jarr _ | jbool _, jobj _
  | jnum _, jnull | jnum _, jbool _ | jnum _, jstr _ | jnum _, jarr _ | jnum _, jobj _
  | jstr _, jnull | jstr _, jbool _ | jstr _, jnum _ | jstr _, jarr _ | jstr _, jobj _
  | jarr _, jnull | jarr _, jbool _ | jarr _, jnum _ | jarr _, jstr _ | jarr _, jobj _
  | jobj _, jnull | jobj _, jbool _ | jobj _, jnum _ | jobj _, jstr _ | jobj _, jarr _ => by
      simp [jeq]

theorem jeqList_iff : ∀ xs ys : List J, jeqList xs ys = true ↔ xs = ys
  | [], [] => by simp [jeqList]
  | [], _ :: _ => by simp [jeqList]
  | _ :: _, [] => by simp [jeqList]
  | x :: xs, y :: ys => by
      simp [jeqList, jeq_iff x y, jeqList_iff xs ys]

theorem jeqFields_iff : ∀ xs ys : List (String × J), jeqFields xs ys = true ↔ xs = ys
  | [], [] => by simp [jeqFields]
  | [], _ :: _ => by simp [jeqFields]
  | _ :: _, [] => by simp [jeqFields]
  | (k, v) :: xs, (k2, v2) :: ys => by
      simp only [jeqFields, Bool.and_eq_true, beq_iff_eq, jeq_iff v v2, jeqFields_iff xs ys,
        List.cons.injEq, Prod.mk.injEq, and_assoc]

end

instance : DecidableEq J := fun a b => decidable_of_iff _ (jeq_iff a b)

/-- `d.get(k)` / `k in d` membership test on a Python dict parsed from JSON:
the last binding wins (as in `json.loads`). -/
def jGet (j : J) (k : String) : Option J :=
  match j with
  | jobj fields => fields.foldl (fun acc kv => if kv.1 = k then some kv.2 else acc) none
  | _ => none

/-- `k in d` for a Python dict. -/
def jHas (j : J) (k : String) : Bool :=
  match j with
  | jobj fields => fields.any (fun kv => kv.1 = k)
  | _ => false

/-- Python truthiness (`if x:`) of a JSON value. -/
def jTruthy : J → Bool
  | jnull => false
  | jbool b => b
  | jnum n => n != 0
  | jstr s => s ≠ ""
  | jarr l => !l.isEmpty
  | jobj f => !f.isEmpty

/-- Python hashability: lists and dicts raise `TypeError` when used as dict
keys or set members; all other JSON values are hashable. -/
def hashable : J → Bool
  | jarr _ => false
  | jobj _ => false
  | _ => true

end J

/-- `d[k] = v` on a Python dict as an association list: overwrite in place
(keeping the key's position) if present, else append a new binding. -/
def assocSet {κ : Type} [DecidableEq κ] {α : Type} (l : List (κ × α)) (k : κ) (v : α) :
    List (κ × α) :=
  if l.any (fun kv => kv.1 = k) then
    l.map (fun kv => if kv.1 = k then (kv.1, v) else kv)
  else l ++ [(k, v)]

/-- `d.get(k)` on a model dict (last binding wins, matching `jGet`). -/
def assocGet {κ : Type} [DecidableEq κ] {α : Type} (l : List (κ × α)) (k : κ) : Option α :=
  l.foldl (fun acc kv => if kv.1 = k then some kv.2 else acc) none

/-- `{k: v for k, v in l}`: first-occurrence key positions, last value wins. -/
def normKeys {κ : Type} [DecidableEq κ] {α : Type} (l : List (κ × α)) : List (κ × α) :=
  l.foldl (fun acc kv => assocSet acc kv.1 kv.2) []

/-- Models `for item in v` over a JSON value taken from a dict.  Iterating a
missing value's default `[]`, an empty string or an empty dict yields nothing;
arrays yield their elements; everything else is an error (non-iterables raise
`TypeError`; with a nonempty string or dict every loop body in this codebase
immediately subscripts or `.get`s the string element, raising). -/
def iterVal : J → Option (List J)
  | J.jarr l => some l
  | J.jstr "" => some []
  | J.jobj [] => some []
  | _ => none

/-- `for item in d.get(k, [])`. -/
def iterList : Option J → Option (List J)
  | none => some []
  | some v => iterVal v

namespace Cache

/-! ## `cache.py`

`Asia/Tokyo` is the fixed offset UTC+9 = 32400 s.  Calendar dates are day
numbers: date `d` covers local instants `[d*86400 - 32400, (d+1)*86400 - 32400)`.
-/

/-- The instant of local (JST) midnight of day `d`. -/
def localMidnight (d : Int) : Int := d * 86400 - 32400

/-- The JST calendar day of an instant (`dt.astimezone(JST)` date part). -/
def dateOf (t : Int) : Int := (t + 32400).fdiv 86400

/-- The stepping loop of `_dates_in_range`: starting from day `d` (the
local-midnight floor of `start`), collect days while `current < end`. -/
def datesFrom (endT : Int) (d : Int) : List Int :=
  if h : localMidnight d < endT then d :: datesFrom endT (d + 1) else []
termination_by ((endT + 32400) - d * 86400).toNat
decreasing_by simp only [localMidnight] at h; omega

/-- `_dates_in_range(start, end)` (`cache.py` lines 20-29). -/
def datesInRange (start endT : Int) : List Int := datesFrom endT (dateOf start)

/-- `groups.setdefault(date_key, []).append(tweet)`. -/
def groupPush (groups : List (Int × List J)) (d : Int) (t : J) : List (Int × List J) :=
  if groups.any (fun kv => kv.1 = d) then
    groups.map (fun kv => if kv.1 = d then (kv.1, kv.2 ++ [t]) else kv)
  else groups ++ [(d, [t])]

/-- `datetime.fromisoformat(tweet["created_at"])`: `created_at` is modelled
as the integer instant its ISO string denotes; a missing or non-numeric field
is an unparseable `created_at` (KeyError / ValueError). -/
def parseCreatedAt (t : J) : Option Int :=
  match t.jGet "created_at" with
  | some (J.jnum n) => some n
  | _ => none

/-- `_group_tweets_by_date` (`cache.py` lines 32-39). -/
def groupTweetsByDate (tweets : List J) : Option (List (Int × List J)) :=
  tweets.foldlM (fun groups t =>
    (parseCreatedAt t).map (fun n => groupPush groups (dateOf n) t)) []

/-- `_validate_cache` (`cache.py` lines 42-55).  Note: it checks only the
*presence* of `id` and `text` on each tweet, not that they are strings. -/
def validateCache (data : J) : Bool :=
  match data with
  | J.jobj _ =>
    (match data.jGet "tweets" with
     | some (J.jarr ts) =>
        ts.all (fun t => (match t with | J.jobj _ => true | _ => false)
          && t.jHas "id" && t.jHas "text")
     | _ => false)
    && (match data.jGet "includes" with
        | none => true
        | some (J.jobj _) => true
        | some _ => false)
  | _ => false

/-- `item.get(id_field, item.get("id", ""))`; `item` must be a dict. -/
def itemIdOpt (idField : String) (item : J) : Option J :=
  match item with
  | J.jobj _ => some ((item.jGet idField).getD ((item.jGet "id").getD (J.jstr "")))
  | _ => none

/-- An item's identity as it enters the `existing_ids` set: Python hashes it
there (set comprehension, `not in`, `.add`), raising `TypeError` when the
identity value is unhashable (a list or dict). -/
def itemIdHashed (idField : String) (item : J) : Option J := do
  let iid ← itemIdOpt idField item
  if J.hashable iid then some iid else none

/-- The inner loop of `_merge_includes`: append each new item whose identity
is not already present, tracking the identity set.  `item_id not in
existing_ids` hashes `item_id`, so an unhashable identity raises. -/
def mergeCat (idField : String) : List J → List J → List J → Option (List J × List J)
  | existing, ids, [] => some (existing, ids)
  | existing, ids, item :: rest => do
      let iid ← itemIdHashed idField item
      if iid ∈ ids then mergeCat idField existing ids rest
      else mergeCat idField (existing ++ [item]) (ids ++ [iid]) rest

/-- One `for key, values in new.items()` iteration of `_merge_includes`.
The `existing_ids` set comprehension hashes every existing identity. -/
def mergeOneCat (merged : List (String × List J)) (k : String) (values : J) :
    Option (List (String × List J)) := do
  let existing := (assocGet merged k).getD []
  let idField := if k = "media" then "media_key" else "id"
  let existingIds ← existing.mapM (itemIdHashed idField)
  let items ← iterVal values
  let r ← mergeCat idField existing existingIds items
  some (assocSet merged k r.1)

/-- `_merge_includes` (`cache.py` lines 58-70).  `base` is the accumulated
model dict; `newFields` are the fields of the incoming `includes` object
(normalised as `json.loads`/dict construction leaves them). -/
def mergeIncludes (base : List (String × List J)) (newFields : List (String × J)) :
    Option (List (String × List J)) :=
  (normKeys newFields).foldlM (fun merged kv => mergeOneCat merged kv.1 kv.2)
    (normKeys base)

/-- State of one date's cache file: absent, unreadable (bad encoding or bad
JSON), or readable with parsed contents. -/
inductive FileState : Type where
  | missing : FileState
  | unreadable : FileState
  | parsed : J → FileState
deriving DecidableEq

/-- The cache directory: one `FileState` per calendar day. -/
def FS : Type := Int → FileState

/-- `path.write_text(json.dumps(day_data))` for one date. -/
def fsWrite (fs : FS) (d : Int) (j : J) : FS :=
  fun d2 => if d2 = d then FileState.parsed j else fs d2

/-- The `{posts, includes}` argument of `save` after `data.get("tweets", [])`
and `data.get("includes", {})`. -/
structure SaveInput : Type where
  tweets : List J
  includes : J

/-- `save` (`cache.py` lines 98-116): group by JST date and write one file
per affected date containing that date's group and the *whole* input
`includes`; no existing file is read or merged.  Returns the written dates
(standing for the returned paths). -/
def dayData (ts : List J) (includes : J) : J :=
  J.jobj [("tweets", J.jarr ts), ("includes", includes)]

def save (fs : FS) (inp : SaveInput) : Option (FS × List Int) := do
  let groups ← groupTweetsByDate inp.tweets
  let fs2 := groups.foldl (fun f g => fsWrite f g.1 (dayData g.2 inp.includes)) fs
  some (fs2, groups.map (fun g => g.1))

/-- Result of `load`: an uncaught exception, `None`, or `{tweets, includes}`. -/
inductive LoadResult : Type where
  | err : LoadResult
  | miss : LoadResult
  | hit : List J → List (String × List J) → LoadResult
deriving DecidableEq

/-- `data["tweets"]` of a validated cache file (validation guarantees the
list shape). -/
def tweetsOfFile (data : J) : List J :=
  match data.jGet "tweets" with | some (J.jarr l) => l | _ => []

/-- `data.get("includes", {})` of a validated cache file (validation
guarantees it is an object when present). -/
def incFieldsOfFile (data : J) : List (String × J) :=
  match data.jGet "includes" with | some (J.jobj fl) => fl | _ => []

/-- The per-date loop of `load`. -/
def loadGo (fs : FS) : List Int → List J → List (String × List J) → LoadResult
  | [], tws, inc => LoadResult.hit tws inc
  | d :: ds, tws, inc =>
    match fs d with
    | FileState.missing => LoadResult.miss
    | FileState.unreadable => LoadResult.miss
    | FileState.parsed data =>
      if validateCache data then
        match mergeIncludes inc (incFieldsOfFile data) with
        | none => LoadResult.err
        | some inc2 => loadGo fs ds (tws ++ tweetsOfFile data) inc2
      else LoadResult.miss

/-- `load` (`cache.py` lines 73-95): all-or-nothing over the period's dates. -/
def load (fs : FS) (start endT : Int) : LoadResult :=
  match datesInRange start endT with
  | [] => LoadResult.miss
  | ds => loadGo fs ds [] []

end Cache

/-- `d[k] = v` on a JSON object (no-op on non-objects; call sites guard). -/
def J.jSet (j : J) (k : String) (v : J) : J :=
  match j with
  | J.jobj f => J.jobj (assocSet f k v)
  | _ => j

/-- A value required to be a `str` by the Python code (`str.replace`,
`str` concatenation); anything else raises there. -/
def asStr : J → Option String
  | J.jstr s => some s
  | _ => none

/-- `+=` of a metric value: ints and bools (Python bools are ints) add;
anything else raises `TypeError`. -/
def asNum : J → Option Int
  | J.jnum n => some n
  | J.jbool b => some (if b then 1 else 0)
  | _ => none

/-- `l` starts with `p` (char level). -/
def listStartsWith : List Char → List Char → Bool
  | _, [] => true
  | [], _ :: _ => false
  | c :: cs, p :: ps => c == p && listStartsWith cs ps

/-- Python `str.replace` on char lists: left-to-right, non-overlapping.
Structural on a fuel argument so concrete renders reduce definitionally;
fuel `l.length` suffices because every step consumes at least one character
(the program only ever replaces non-empty patterns, and an empty pattern is
modelled as a no-op). -/
def replChAux (pat repl : List Char) : Nat → List Char → List Char
  | 0, l => l
  | fuel + 1, l =>
    match l with
    | [] => []
    | c :: cs =>
      if listStartsWith l pat && !pat.isEmpty then
        repl ++ replChAux pat repl fuel (l.drop pat.length)
      else c :: replChAux pat repl fuel cs

/-- Python `str.replace`. -/
def strReplace (s pat repl : String) : String :=
  String.mk (replChAux pat.data repl.data s.data.length s.data)

/-- Python `sub in s` at the char level. -/
def containsSub (pat : List Char) : List Char → Bool
  | [] => listStartsWith [] pat
  | c :: cs => listStartsWith (c :: cs) pat || containsSub pat cs

namespace Formatter

/-! ## `formatter.py` -/

/-- `media_map.get(key)`: `mediaKey → path` lookup keyed by strings; an
unhashable key raises `TypeError` (outer `none`); hashable non-string keys
simply miss. -/
def mmGet (k : J) (mm : List (String × String)) : Option (Option String) :=
  if J.hashable k then
    some (match k with | J.jstr s => assocGet mm s | _ => none)
  else none

/-- `ref_map[...]` / `... in ref_map`-style access on a dict keyed by JSON
values; an unhashable key raises `TypeError`. -/
def refGet (m : List (J × J)) (k : J) : Option (Option J) :=
  if J.hashable k then some (assocGet m k) else none

/-- `_sanitize_md_link_text` (`formatter.py` lines 26-28). -/
def sanitizeMdLinkText (s : String) : String :=
  strReplace (strReplace s "[" "") "]" ""

/-- `_expand_urls` (`formatter.py` lines 31-41).  Model restriction: a
non-string `expanded_url`/truthy `title` is an error (Python raises at
`str.replace` for the title and for a bare non-string replacement; the one
corner it would tolerate — a non-string `expanded_url` embedded through an
f-string when a title is present — is excluded from the model). -/
def expandUrls (text : String) (entities : J) : Option String := do
  match entities with
  | J.jobj _ => do
    let urls ← iterList (entities.jGet "urls")
    urls.foldlM (fun txt e => do
      match e with
      | J.jobj _ => do
        let uv ← e.jGet "url"
        let us ← asStr uv
        let expanded ← asStr ((e.jGet "expanded_url").getD uv)
        match e.jGet "title" with
        | some tv =>
          if J.jTruthy tv then do
            let ts ← asStr tv
            pure (strReplace txt us ("[" ++ sanitizeMdLinkText ts ++ "](" ++ expanded ++ ")"))
          else pure (strReplace txt us expanded)
        | none => pure (strReplace txt us expanded)
      | _ => none) text
  | _ => none

/-- `"> " * depth`. -/
def quotePfx (depth : Nat) : String := String.join (List.replicate depth "> ")

/-- Python `str.rstrip()`. -/
def rstrip (s : String) : String :=
  String.mk (s.data.reverse.dropWhile Char.isWhitespace).reverse

def MAXQUOTEDEPTH : Nat := 5

/-- The non-recursive part of `_format_quoted` (`formatter.py` lines 58-105):
author line, then either the article block (second component `true`: the
source returns early, skipping media and recursion) or body text plus media
embeds.  Model restriction: a truthy non-string `_author_username` is an
error (Python would render it through an f-string; the program only ever
stores strings there). -/
def fqBase (mm : List (String × String)) (depth : Nat) (t : J) :
    Option (List String × Bool) := do
  let pfx := quotePfx depth
  let epfx := rstrip pfx
  let authorJ := (t.jGet "_author_username").getD (J.jstr "")
  let lines0 ← (if J.jTruthy authorJ then do
      let a ← asStr authorJ
      pure [pfx ++ "@" ++ a ++ ":", epfx]
    else pure [])
  let articleOpt := t.jGet "article"
  match articleOpt with
  | some art =>
    if J.jTruthy art then
      match art with
      | J.jobj _ => do
        let title := (art.jGet "title").getD (J.jstr "")
        let lines1 ← (if J.jTruthy title then do
            let ts ← asStr title
            pure [pfx ++ "**" ++ sanitizeMdLinkText ts ++ "**", epfx]
          else pure [])
        let cover := art.jGet "cover_media"
        let lines2 ← (match cover with
          | some ck =>
            if J.jTruthy ck then do
              let p ← mmGet ck mm
              pure (match p with
                | some path => if path ≠ "" then [pfx ++ "![](" ++ path ++ ")", epfx] else []
                | none => [])
            else pure []
          | none => pure [])
        let plain := (art.jGet "plain_text").getD (J.jstr "")
        let lines3 ← (if J.jTruthy plain then do
            let ps ← asStr plain
            pure [pfx ++ strReplace ps "\n" ("\n" ++ pfx)]
          else pure [])
        pure (lines0 ++ lines1 ++ lines2 ++ lines3, true)
      | _ => none
    else fqNonArticle mm pfx epfx lines0 t
  | none => fqNonArticle mm pfx epfx lines0 t
where
  /-- note_tweet / plain text, URL expansion and media embeds. -/
  fqNonArticle (mm : List (String × String)) (pfx epfx : String) (lines0 : List String)
      (t : J) : Option (List String × Bool) := do
    let noteOpt := t.jGet "note_tweet"
    let text ← (match noteOpt with
      | some note =>
        if J.jTruthy note then
          match note with
          | J.jobj _ => do
            let entities := (note.jGet "entities").getD ((t.jGet "entities").getD (J.jobj []))
            let baseText ← t.jGet "text"
            let ts ← asStr ((note.jGet "text").getD baseText)
            expandUrls ts entities
          | _ => none
        else do
          let tj ← t.jGet "text"
          let ts ← asStr tj
          expandUrls ts ((t.jGet "entities").getD (J.jobj []))
      | none => do
        let tj ← t.jGet "text"
        let ts ← asStr tj
        expandUrls ts ((t.jGet "entities").getD (J.jobj [])))
    let bodyLine := pfx ++ strReplace text "\n" ("\n" ++ pfx)
    let att := (t.jGet "attachments").getD (J.jobj [])
    match att with
    | J.jobj _ => do
      let keys ← iterList (att.jGet "media_keys")
      let mediaLines ← keys.foldlM (fun acc k => do
          let p ← mmGet k mm
          pure (match p with
            | some path => if path ≠ "" then acc ++ [epfx, pfx ++ "![](" ++ path ++ ")"] else acc
            | none => acc)) []
      pure (lines0 ++ [bodyLine] ++ mediaLines, false)
    | _ => none

/-- The recursion of `_format_quoted` (`formatter.py` lines 107-116),
reparametrised by the remaining depth budget `rem = MAXQUOTEDEPTH - depth`
so that the recursion is structural: the source recurses only while
`depth < 5`, which is exactly `rem > 0`. -/
def fqAux (refMap : List (J × J)) (mm : List (String × String)) :
    Nat → Nat → J → Option (List String)
  | 0, depth, t => do
      let r ← fqBase mm depth t
      pure r.1
  | rem + 1, depth, t => do
      let r ← fqBase mm depth t
      if r.2 then pure r.1
      else do
        let refs ← iterList (t.jGet "referenced_tweets")
        refs.foldlM (fun acc ref => do
            match ref with
            | J.jobj _ => do
              let rt ← ref.jGet "type"
              if rt = J.jstr "quoted" ∨ rt = J.jstr "retweeted" ∨ rt = J.jstr "replied_to" then do
                let rid ← ref.jGet "id"
                let tgt ← refGet refMap rid
                match tgt with
                | some target => do
                    let sub ← fqAux refMap mm rem (depth + 1) target
                    pure (acc ++ [rstrip (quotePfx depth)] ++ sub)
                | none => pure acc
              else pure acc
            | _ => none) r.1

/-- `_format_quoted` (`formatter.py` lines 58-116). -/
def formatQuoted (t : J) (refMap : List (J × J)) (depth : Nat)
    (mm : List (String × String)) : Option (List String) :=
  fqAux refMap mm (MAXQUOTEDEPTH - depth) depth t

/-- The short-circuiting `any(r["type"] == "retweeted" for r in refs)`. -/
def anyRetweeted : List J → Option Bool
  | [] => some false
  | r :: rest =>
    match r with
    | J.jobj _ => do
        let rt ← r.jGet "type"
        if rt = J.jstr "retweeted" then some true else anyRetweeted rest
    | _ => none

/-- `_is_plain_retweet` (`formatter.py` lines 119-121): any `retweeted`-type
reference, regardless of other content. -/
def isPlainRetweet (t : J) : Option Bool := do
  let refs ← iterList (t.jGet "referenced_tweets")
  anyRetweeted refs

/-- The `user_map` loop of `_build_ref_map` (`formatter.py` lines 17-19). -/
def userMapOf (users : List J) : Option (List (J × J)) :=
  users.foldlM (fun (um : List (J × J)) u => do
    match u with
    | J.jobj _ => do
        let uid ← u.jGet "id"
        if J.hashable uid then
          pure (assocSet um uid ((u.jGet "username").getD (J.jstr "")))
        else none
    | _ => none) []

/-- The in-place mutation `tweet["_author_username"] = user_map.get(...)`
(`formatter.py` line 21), as the record it leaves behind. -/
def augTweet (um : List (J × J)) (t : J) : J :=
  t.jSet "_author_username"
    ((assocGet um ((t.jGet "author_id").getD (J.jstr ""))).getD (J.jstr ""))

/-- One iteration of the `ref_map` loop of `_build_ref_map` (`formatter.py`
lines 20-22): mutate the tweet record, then key it by its id. -/
def refFoldStep (um : List (J × J)) (acc : List (J × J) × List J) (t : J) :
    Option (List (J × J) × List J) := do
  match t with
  | J.jobj _ => do
      if J.hashable ((t.jGet "author_id").getD (J.jstr "")) then do
        let t2 := augTweet um t
        let tid ← t2.jGet "id"
        if J.hashable tid then
          pure (assocSet acc.1 tid t2, acc.2 ++ [t2])
        else none
      else none
  | _ => none

/-- `_build_ref_map` (`formatter.py` lines 15-23).  Mirrors the in-place
mutation `tweet["_author_username"] = ...` by returning, alongside the ref
map, the includes bundle as it stands after the call. -/
def buildRefMap (includes : J) : Option (List (J × J) × J) := do
  match includes with
  | J.jobj _ => do
    let users ← iterList (includes.jGet "users")
    let userMap ← userMapOf users
    let tweets ← iterList (includes.jGet "tweets")
    let r ← tweets.foldlM (refFoldStep userMap) ([], [])
    let newIncludes := match includes.jGet "tweets" with
      | some (J.jarr _) => includes.jSet "tweets" (J.jarr r.2)
      | _ => includes
    pure (r.1, newIncludes)
  | _ => none

/-- `tweet_map = {t["id"]: t for t in tweets}`. -/
def buildTweetMap (tweets : List J) : Option (List (J × J)) :=
  tweets.foldlM (fun m t => do
    match t with
    | J.jobj _ => do
       let tid ← t.jGet "id"
       if J.hashable tid then pure (assocSet m tid t) else none
    | _ => none) []

/-- The `child_to_parent` construction of `_build_self_reply_chains`
(`formatter.py` lines 135-140). -/
def childToParent (tweets : List J) (tweetMap : List (J × J)) :
    Option (List (J × J)) :=
  tweets.foldlM (fun cpt t => do
    match t with
    | J.jobj _ => do
        let refs ← iterList (t.jGet "referenced_tweets")
        refs.foldlM (fun cpt2 ref => do
          match ref with
          | J.jobj _ => do
              let rt ← ref.jGet "type"
              if rt = J.jstr "replied_to" then do
                let rid ← ref.jGet "id"
                let hit ← refGet tweetMap rid
                match hit with
                | some _ => do
                    let tid ← t.jGet "id"
                    if J.hashable tid then pure (assocSet cpt2 tid rid) else none
                | none => pure cpt2
              else pure cpt2
          | _ => none) cpt
    | _ => none) []

/-- The backward walk of `_build_self_reply_chains` (`formatter.py` lines
149-155), with explicit fuel standing in for the unguarded `while` loop.
The second component is `true` exactly when the walk reached a node with no
parent before running out of fuel, i.e. when the Python loop terminates
within that many steps.  Walk keys are hashable by construction of
`child_to_parent`, so no hashability guard is needed here. -/
def walkAux (cpt : List (J × J)) : Nat → J → List J × Bool
  | 0, _ => ([], false)
  | n + 1, cur =>
    match assocGet cpt cur with
    | none => ([cur], true)
    | some p =>
      let r := walkAux cpt n p
      (cur :: r.1, r.2)

/-- The body of the `for tail_id in tail_ids` loop of
`_build_self_reply_chains` (`formatter.py` lines 149-161): walk backward,
reverse to head-first order, and record chains of length ≥ 2. -/
def chainStep (tweetMap cpt : List (J × J)) (acc : List (J × List J) × List J)
    (tailId : J) : List (J × List J) × List J :=
  let w := walkAux cpt (cpt.length + 1) tailId
  let chainIds := w.1.reverse
  if chainIds.length > 1 then
    let chain := chainIds.map (fun tid => (assocGet tweetMap tid).getD J.jnull)
    (assocSet acc.1 (chainIds.headD J.jnull) chain, acc.2 ++ chainIds.tail)
  else acc

/-- `_build_self_reply_chains` (`formatter.py` lines 124-163).  Fuel
`cpt.length + 1` is sufficient whenever the same-day reply relation is
acyclic (theorem below); on a cyclic input Python diverges, the model
truncates.  Python iterates the `tail_ids` *set* in unspecified order; the
model fixes the insertion order of `tweet_map`'s keys.  `tweet_map[tid]`
lookups along a walk cannot fail (all walk nodes are `tweet_map` keys), so
the model defaults them to `jnull` rather than threading a `KeyError`. -/
def buildSelfReplyChains (tweets : List J) :
    Option (List (J × List J) × List J) := do
  let tweetMap ← buildTweetMap tweets
  let cpt ← childToParent tweets tweetMap
  let parentIds := cpt.map (fun kv => kv.2)
  let tailIds := (tweetMap.map (fun kv => kv.1)).filter (fun i => i ∉ parentIds)
  let r := tailIds.foldl (chainStep tweetMap cpt) ([], [])
  pure r

/-- `_COST_PER_READ = 0.005` dollars, held exactly in thousandths of a
dollar: `cost = len(tweets) * 0.005` formatted with `%.3f` agrees with the
exact value `5 * len(tweets)` milli-dollars for every realistic count (the
binary-float error of `n * 0.005` is far below the 3-decimal rounding
step). -/
def costMilli (n : Nat) : Nat := n * 5

/-- `f"{cost:.3f}"` of an exact milli-dollar amount. -/
def fmtCost (m : Nat) : String :=
  toString (m / 1000) ++ "." ++
    (if m % 1000 < 10 then "00" else if m % 1000 < 100 then "0" else "") ++
    toString (m % 1000)

/-- The metric reads of one tweet in `_format_analytics`
(`formatter.py` lines 320-325): `(like, retweet, reply, impression)`. -/
def metricsOf (t : J) : Option (Int × Int × Int × Int) := do
  let m := (t.jGet "public_metrics").getD (J.jobj [])
  match m with
  | J.jobj _ => do
      let like ← asNum ((m.jGet "like_count").getD (J.jnum 0))
      let rt ← asNum ((m.jGet "retweet_count").getD (J.jnum 0))
      let rp ← asNum ((m.jGet "reply_count").getD (J.jnum 0))
      let im ← asNum ((m.jGet "impression_count").getD (J.jnum 0))
      pure (like, rt, rp, im)
  | _ => none

/-- The analytics table of `_format_analytics` (`formatter.py` lines
327-337), parameterised by the computed numbers: posts count, the four
metric sums, and the exact cost in milli-dollars. -/
def analyticsString (posts : Nat) (like rt rp im : Int) (cost : Nat) : String :=
  String.intercalate "\n"
    ["## Analytics", "",
     "| Posts | Like | RT | Reply | Imp | Cost |",
     "|------:|-----:|---:|------:|----:|-----:|",
     "| " ++ toString posts ++ " | " ++ toString like ++ " | " ++
       toString rt ++ " | " ++ toString rp ++ " | " ++
       toString im ++ " | $" ++ fmtCost cost ++ " |"]

/-- The comprehension `[t for t in tweets if not _is_plain_retweet(t)]`
(`formatter.py` line 316): left-to-right, first failure raises. -/
def ownPosts : List J → Option (List J)
  | [] => some []
  | t :: ts => do
      let b ← isPlainRetweet t
      let rest ← ownPosts ts
      pure (if b then rest else t :: rest)

/-- One step of the metric-summing loop (`formatter.py` lines 318-325). -/
def addMetrics (acc : Int × Int × Int × Int) (t : J) :
    Option (Int × Int × Int × Int) := do
  let m ← metricsOf t
  pure (acc.1 + m.1, acc.2.1 + m.2.1, acc.2.2.1 + m.2.2.1, acc.2.2.2 + m.2.2.2)

/-- `_format_analytics` (`formatter.py` lines 311-337). -/
def formatAnalytics (tweets : List J) : Option String := do
  let own ← ownPosts tweets
  let sums ← own.foldlM addMetrics ((0 : Int), (0 : Int), (0 : Int), (0 : Int))
  let cost := costMilli tweets.length
  pure (analyticsString own.length sums.1 sums.2.1 sums.2.2.1 sums.2.2.2 cost)

end Formatter

/-! ## Association-list toolkit -/

section AssocLemmas

variable {κ : Type} [DecidableEq κ] {α : Type}

theorem assocGet_nil (k : κ) : assocGet ([] : List (κ × α)) k = none := rfl

theorem assocGet_foldl_acc (l : List (κ × α)) (k : κ) (acc : Option α) :
    l.foldl (fun acc kv => if kv.1 = k then some kv.2 else acc) acc =
      match l.foldl (fun acc kv => if kv.1 = k then some kv.2 else acc) none with
      | some w => some w
      | none => acc := by
  induction l generalizing acc with
  | nil => simp
  | cons kv l ih =>
    simp only [List.foldl_cons]
    rw [ih, ih (if kv.1 = k then some kv.2 else none)]
    by_cases h : kv.1 = k <;>
      cases hl : l.foldl (fun acc kv => if kv.1 = k then some kv.2 else acc) none <;>
      simp [h, hl]

theorem assocGet_cons (kv : κ × α) (l : List (κ × α)) (k : κ) :
    assocGet (kv :: l) k =
      match assocGet l k with
      | some w => some w
      | none => if kv.1 = k then some kv.2 else none := by
  unfold assocGet
  simp only [List.foldl_cons]
  rw [assocGet_foldl_acc]

theorem assocGet_append (l1 l2 : List (κ × α)) (k : κ) :
    assocGet (l1 ++ l2) k =
      match assocGet l2 k with
      | some w => some w
      | none => assocGet l1 k := by
  unfold assocGet
  rw [List.foldl_append, assocGet_foldl_acc l2]

theorem assocGet_eq_none_iff (l : List (κ × α)) (k : κ) :
    assocGet l k = none ↔ k ∉ l.map Prod.fst := by
  induction l with
  | nil => simp [assocGet_nil]
  | cons kv l ih =>
    rw [assocGet_cons]
    simp only [List.map_cons, List.mem_cons]
    cases hl : assocGet l k with
    | some w =>
        have hk : k ∈ l.map Prod.fst := by
          by_contra hc
          rw [ih.mpr hc] at hl
          exact Option.noConfusion hl
        simp [hk]
    | none =>
        have hk : k ∉ l.map Prod.fst := ih.mp hl
        by_cases h : kv.1 = k <;> simp [h, hk]
        exact fun hc => h hc.symm

theorem assocGet_isSome_iff (l : List (κ × α)) (k : κ) :
    (assocGet l k).isSome ↔ k ∈ l.map Prod.fst := by
  constructor
  · intro hs
    by_contra hc
    rw [(assocGet_eq_none_iff l k).mpr hc] at hs
    simp at hs
  · intro hm
    cases h : assocGet l k with
    | none => exact absurd ((assocGet_eq_none_iff l k).mp h) (not_not_intro hm)
    | some w => simp

theorem anyKey_iff (l : List (κ × α)) (k : κ) :
    l.any (fun kv => kv.1 = k) = true ↔ k ∈ l.map Prod.fst := by
  simp only [List.any_eq_true, decide_eq_true_eq, List.mem_map]

theorem assocGet_mapReplace (l : List (κ × α)) (k : κ) (v : α) (k2 : κ) :
    assocGet (l.map (fun kv => if kv.1 = k then (kv.1, v) else kv)) k2 =
      if k2 = k then (assocGet l k).map (fun _ => v) else assocGet l k2 := by
  induction l with
  | nil => by_cases hk : k2 = k <;> simp [assocGet_nil, hk]
  | cons kv l ih =>
    simp only [List.map_cons, assocGet_cons, ih]
    by_cases hk : k2 = k
    · subst hk
      cases hl : assocGet l k2 <;> by_cases h1 : kv.1 = k2 <;> simp [hl, h1]
    · rw [if_neg hk]
      cases hl2 : assocGet l k2 <;> by_cases h1 : kv.1 = k <;> by_cases h2 : kv.1 = k2 <;>
        simp_all [hk]

theorem assocGet_assocSet (l : List (κ × α)) (k : κ) (v : α) (k2 : κ) :
    assocGet (assocSet l k v) k2 = if k2 = k then some v else assocGet l k2 := by
  unfold assocSet
  by_cases hmem : l.any (fun kv => kv.1 = k)
  · rw [if_pos hmem, assocGet_mapReplace]
    by_cases hk : k2 = k
    · subst hk
      have hsome : (assocGet l k2).isSome :=
        (assocGet_isSome_iff l k2).mpr ((anyKey_iff l k2).mp hmem)
      cases hl : assocGet l k2 with
      | some w => simp
      | none => rw [hl] at hsome; simp at hsome
    · simp [hk]
  · rw [if_neg hmem, assocGet_append]
    have h1 : assocGet [(k, v)] k2 = if k = k2 then some v else none := by
      rw [assocGet_cons]
      simp [assocGet_nil]
    rw [h1]
    by_cases hk : k2 = k
    · subst hk; simp
    · rw [if_neg (Ne.symm hk), if_neg hk]

theorem keys_assocSet (l : List (κ × α)) (k : κ) (v : α) :
    (assocSet l k v).map Prod.fst =
      if k ∈ l.map Prod.fst then l.map Prod.fst else l.map Prod.fst ++ [k] := by
  unfold assocSet
  by_cases hmem : l.any (fun kv => kv.1 = k)
  · rw [if_pos hmem, if_pos ((anyKey_iff l k).mp hmem), List.map_map]
    apply List.map_congr_left
    intro kv _
    by_cases h : kv.1 = k <;> simp [h, Function.comp]
  · rw [if_neg hmem, if_neg (fun hc => hmem ((anyKey_iff l k).mpr hc)), List.map_append]
    simp

theorem keys_assocSet_nodup (l : List (κ × α)) (k : κ) (v : α)
    (h : (l.map Prod.fst).Nodup) : ((assocSet l k v).map Prod.fst).Nodup := by
  rw [keys_assocSet]
  by_cases hk : k ∈ l.map Prod.fst
  · rwa [if_pos hk]
  · rw [if_neg hk]
    simpa using List.Nodup.append h (List.nodup_singleton k) (by simpa using hk)

end AssocLemmas

/-! ## Spec-side definitions

These follow the spec's words (for refinement comparisons), not the code. -/

/-- From the spec: the local midnight-to-midnight window of day `d`,
`[localMidnight d, localMidnight d + 86400)`, has nonempty intersection with
the half-open period `[start, endT)`. -/
def specWindowIntersects (start endT d : Int) : Prop :=
  max start (Cache.localMidnight d) < min endT (Cache.localMidnight d + 86400)

instance (start endT d : Int) : Decidable (specWindowIntersects start endT d) := by
  unfold specWindowIntersects; infer_instance

/-! ## Claim C4: date-range computation -/

namespace Cache

theorem mem_datesFrom (endT d d2 : Int) :
    d2 ∈ datesFrom endT d ↔ d ≤ d2 ∧ localMidnight d2 < endT := by
  rw [datesFrom]
  by_cases h : localMidnight d < endT
  · rw [dif_pos h]
    rw [List.mem_cons, mem_datesFrom endT (d + 1) d2]
    simp only [localMidnight] at *
    omega
  · rw [dif_neg h]
    simp only [List.not_mem_nil, false_iff, not_and, not_lt]
    intro hle
    simp only [localMidnight] at *
    omega
termination_by ((endT + 32400) - d * 86400).toNat
decreasing_by simp only [localMidnight] at h; omega

theorem datesFrom_pairwise (endT d : Int) :
    List.Pairwise (· < ·) (datesFrom endT d) := by
  rw [datesFrom]
  by_cases h : localMidnight d < endT
  · rw [dif_pos h]
    refine List.pairwise_cons.mpr ⟨fun x hx => ?_, datesFrom_pairwise endT (d + 1)⟩
    have := (mem_datesFrom endT (d + 1) x).mp hx
    omega
  · rw [dif_neg h]; exact List.Pairwise.nil
termination_by ((endT + 32400) - d * 86400).toNat
decreasing_by simp only [localMidnight] at h; omega

theorem datesInRange_empty_iff (start endT : Int) :
    datesInRange start endT = [] ↔ endT ≤ localMidnight (dateOf start) := by
  rw [datesInRange, datesFrom]
  by_cases h : localMidnight (dateOf start) < endT
  · rw [dif_pos h]; simp; omega
  · rw [dif_neg h]; simp; omega

end Cache

/-- C4 (amended).  The original claim characterised the produced dates as
those whose local midnight-to-midnight window intersects `[start, end)`
itself; the code first floors `start` to its local midnight, so an empty
mid-day period such as `[noon, noon)` still yields that day (see the
counterexample).  Amended: `_dates_in_range` returns the ordered,
duplicate-free list of exactly those local calendar dates whose local
midnight-to-midnight window intersects `[floor(start), end)` — the period
with `start` replaced by its local-midnight floor — and the list is empty
iff `start ≥ end` after flooring `start` to its local midnight. -/
theorem c4_dates_in_range_amended (start endT d : Int) :
    (d ∈ Cache.datesInRange start endT ↔
      specWindowIntersects (Cache.localMidnight (Cache.dateOf start)) endT d) ∧
    List.Pairwise (· < ·) (Cache.datesInRange start endT) ∧
    (Cache.datesInRange start endT = [] ↔
      endT ≤ Cache.localMidnight (Cache.dateOf start)) := by
  refine ⟨?_, Cache.datesFrom_pairwise endT (Cache.dateOf start),
    Cache.datesInRange_empty_iff start endT⟩
  rw [Cache.datesInRange, Cache.mem_datesFrom]
  unfold specWindowIntersects Cache.localMidnight
  constructor
  · rintro ⟨h1, h2⟩
    simp only [max_lt_iff, lt_min_iff]
    omega
  · intro h
    simp only [max_lt_iff, lt_min_iff] at h
    omega

/-- C4 (counterexample to the claim as stated).  The empty period
`[noon, noon)` of JST day 0 — `start = end = 10800` (noon JST of
1970-01-01) — intersects no day's window, yet `_dates_in_range` returns
that one day, because it floors `start` to local midnight before comparing
against `end`. -/
theorem c4_dates_in_range_counterexample :
    (0 : Int) ∈ Cache.datesInRange 10800 10800 ∧
    ¬ specWindowIntersects 10800 10800 0 := by
  have h1 : Cache.datesInRange 10800 10800 = [0] := by
    rw [Cache.datesInRange, show Cache.dateOf 10800 = 0 from by decide]
    rw [Cache.datesFrom]
    norm_num [Cache.localMidnight]
    rw [Cache.datesFrom]
    norm_num [Cache.localMidnight]
  rw [h1]
  exact ⟨by simp, by decide⟩

/-! ## Claim C2: save semantics for existing day caches -/

namespace Cache

theorem assocGet_groupPushMap (g : List (Int × List J)) (d : Int) (t : J) (d2 : Int) :
    assocGet (g.map (fun kv => if kv.1 = d then (kv.1, kv.2 ++ [t]) else kv)) d2 =
      if d2 = d then (assocGet g d).map (fun v => v ++ [t]) else assocGet g d2 := by
  induction g with
  | nil => by_cases hk : d2 = d <;> simp [assocGet_nil, hk]
  | cons kv l ih =>
    simp only [List.map_cons, assocGet_cons, ih]
    by_cases hk : d2 = d
    · subst hk
      cases hl : assocGet l d2 <;> by_cases h1 : kv.1 = d2 <;> simp [hl, h1]
    · rw [if_neg hk]
      cases hl2 : assocGet l d2 <;> by_cases h1 : kv.1 = d <;> by_cases h2 : kv.1 = d2 <;>
        simp_all [hk]

theorem assocGet_groupPush (g : List (Int × List J)) (d : Int) (t : J) (d2 : Int) :
    assocGet (groupPush g d t) d2 =
      if d2 = d then some ((assocGet g d).getD [] ++ [t]) else assocGet g d2 := by
  unfold groupPush
  by_cases hmem : g.any (fun kv => kv.1 = d)
  · rw [if_pos hmem, assocGet_groupPushMap]
    by_cases hk : d2 = d
    · subst hk
      have hsome : (assocGet g d2).isSome :=
        (assocGet_isSome_iff g d2).mpr ((anyKey_iff g d2).mp hmem)
      cases hl : assocGet g d2 with
      | some w => simp
      | none => rw [hl] at hsome; simp at hsome
    · simp [hk]
  · rw [if_neg hmem, assocGet_append]
    have hnone : assocGet g d = none :=
      (assocGet_eq_none_iff g d).mpr (fun hc => hmem ((anyKey_iff g d).mpr hc))
    have h1 : assocGet [(d, [t])] d2 = if d = d2 then some [t] else none := by
      rw [assocGet_cons]
      simp [assocGet_nil]
    rw [h1]
    by_cases hk : d2 = d
    · subst hk
      rw [if_pos rfl, hnone]
      simp
    · rw [if_neg (Ne.symm hk), if_neg hk]

theorem keys_groupPush (g : List (Int × List J)) (d : Int) (t : J) :
    (groupPush g d t).map Prod.fst =
      if d ∈ g.map Prod.fst then g.map Prod.fst else g.map Prod.fst ++ [d] := by
  unfold groupPush
  by_cases hmem : g.any (fun kv => kv.1 = d)
  · rw [if_pos hmem, if_pos ((anyKey_iff g d).mp hmem), List.map_map]
    apply List.map_congr_left
    intro kv _
    by_cases h : kv.1 = d <;> simp [h, Function.comp]
  · rw [if_neg hmem, if_neg (fun hc => hmem ((anyKey_iff g d).mpr hc)), List.map_append]
    simp

theorem foldl_fsWrite_apply (inc : J) (groups : List (Int × List J)) (fs : FS) (d : Int) :
    (groups.foldl (fun f g => fsWrite f g.1 (dayData g.2 inc)) fs) d =
      match assocGet groups d with
      | some ts => FileState.parsed (dayData ts inc)
      | none => fs d := by
  induction groups generalizing fs with
  | nil => simp [assocGet_nil]
  | cons g rest ih =>
    rw [List.foldl_cons, ih, assocGet_cons]
    cases hl : assocGet rest d with
    | some ts => rfl
    | none =>
      by_cases h : g.1 = d
      · subst h; simp [fsWrite]
      · have h2 : ¬ d = g.1 := fun hc => h hc.symm
        simp [fsWrite, h, h2]

theorem save_spec (fs : FS) (inp : SaveInput) (groups : List (Int × List J))
    (hg : groupTweetsByDate inp.tweets = some groups) :
    ∃ fs2, save fs inp = some (fs2, groups.map Prod.fst) ∧
      (∀ d ts, assocGet groups d = some ts → fs2 d = FileState.parsed (dayData ts inp.includes)) ∧
      (∀ d, assocGet groups d = none → fs2 d = fs d) := by
  refine ⟨groups.foldl (fun f g => fsWrite f g.1 (dayData g.2 inp.includes)) fs, ?_, ?_, ?_⟩
  · unfold save
    rw [hg]
    rfl
  · intro d ts hts
    rw [foldl_fsWrite_apply, hts]
  · intro d hd
    rw [foldl_fsWrite_apply, hd]

end Cache

/-! ### Concrete test data shared by several claims -/

def u1 : J := J.jobj [("id", J.jstr "1")]

def exT1 : J := J.jobj [("id", J.jstr "p1"), ("text", J.jstr "x"), ("created_at", J.jnum 0)]

def exT2 : J := J.jobj [("id", J.jstr "p2"), ("text", J.jstr "y"), ("created_at", J.jnum 60)]

def exIncUsers : J := J.jobj [("users", J.jarr [u1])]

def exIncEmpty : J := J.jobj []

def fsEmpty : Cache.FS := fun _ => Cache.FileState.missing

/-- C2 (counterexample to the claim as stated).  Day 0 is saved with
`includes.users = [{id:"1"}]`; a second `save` for the same date whose input
`includes` is empty leaves a day-0 file whose `includes` is `{}` — the
previously saved users entry is gone, because `save` never loads or merges
the existing day cache (it overwrites the file wholesale). -/
theorem c2_save_merge_counterexample :
    ((Cache.save fsEmpty ⟨[exT1], exIncUsers⟩).bind (fun r =>
      (Cache.save r.1 ⟨[exT2], exIncEmpty⟩).map (fun r2 => (r.1 0, r2.1 0)))) =
      some (Cache.FileState.parsed (Cache.dayData [exT1] exIncUsers),
            Cache.FileState.parsed (Cache.dayData [exT2] exIncEmpty)) ∧
    ((Cache.dayData [exT1] exIncUsers).jGet "includes").bind
      (fun inc => inc.jGet "users") = some (J.jarr [u1]) ∧
    ((Cache.dayData [exT2] exIncEmpty).jGet "includes").bind
      (fun inc => inc.jGet "users") = none := by
  refine ⟨?_, rfl, rfl⟩
  decide

/-- C2 (amended).  `save` performs no merge with the existing day cache:
for every call, each affected local date's file is overwritten with exactly
the new group's tweets and the input's `includes` verbatim, and every
unaffected date's file is untouched.  Consequently an includes entry present
in the previously saved file for a date but absent from the new input is
*not* present after `save` (see the counterexample), while saving the same
`includes.users` entry twice for the same date leaves exactly the single
copy written by the last save. -/
theorem c2_save_overwrites_amended (fs : Cache.FS) (inp : Cache.SaveInput)
    (groups : List (Int × List J))
    (hg : Cache.groupTweetsByDate inp.tweets = some groups) :
    ∃ fs2, Cache.save fs inp = some (fs2, groups.map Prod.fst) ∧
      (∀ d ts, assocGet groups d = some ts →
        fs2 d = Cache.FileState.parsed (Cache.dayData ts inp.includes)) ∧
      (∀ d, assocGet groups d = none → fs2 d = fs d) :=
  Cache.save_spec fs inp groups hg

/-- Witness for `c2_save_overwrites_amended` at a concrete input. -/
theorem c2_save_overwrites_amended_witness :
    Cache.groupTweetsByDate [exT1] = some [(0, [exT1])] ∧
    (∃ fs2, Cache.save fsEmpty ⟨[exT1], exIncUsers⟩ = some (fs2, [(0, [exT1])].map Prod.fst) ∧
      (∀ d ts, assocGet [(0, [exT1])] d = some ts →
        fs2 d = Cache.FileState.parsed (Cache.dayData ts exIncUsers)) ∧
      (∀ d, assocGet [(0, [exT1])] d = none → fs2 d = fsEmpty d)) :=
  ⟨by decide, c2_save_overwrites_amended fsEmpty ⟨[exT1], exIncUsers⟩ [(0, [exT1])] (by decide)⟩

/-! ## Claim C3: all-or-nothing load and structural validation -/

/-- From the spec's words: the parsed value must be an object containing a
posts list whose every element is an object with at least `id` and `text`
*string* fields, and whose `includes` field, if present, is an object. -/
def specValidateCache (data : J) : Bool :=
  match data with
  | J.jobj _ =>
    (match data.jGet "tweets" with
     | some (J.jarr ts) =>
        ts.all (fun t =>
          match t.jGet "id", t.jGet "text" with
          | some (J.jstr _), some (J.jstr _) => true
          | _, _ => false)
     | _ => false)
    && (match data.jGet "includes" with
        | none => true
        | some (J.jobj _) => true
        | some _ => false)
  | _ => false

/-- A cache file with `id`/`text` present but numeric, not strings. -/
def dayBad : J := J.jobj [("tweets", J.jarr [J.jobj [("id", J.jnum 5), ("text", J.jnum 7)]])]

def fsBad : Cache.FS := fun d => if d = 0 then Cache.FileState.parsed dayBad else Cache.FileState.missing

theorem datesInRange_day0 : Cache.datesInRange (-32400) 54000 = [0] := by
  rw [Cache.datesInRange, show Cache.dateOf (-32400) = 0 from by decide]
  rw [Cache.datesFrom]
  norm_num [Cache.localMidnight]
  rw [Cache.datesFrom]
  norm_num [Cache.localMidnight]

/-- A date of the period whose file state makes `load` treat the whole call
as failed: missing, unreadable, or parsed but failing `_validate_cache`. -/
def BadDate (fs : Cache.FS) (d : Int) : Prop :=
  fs d = Cache.FileState.missing ∨ fs d = Cache.FileState.unreadable ∨
    ∃ j, fs d = Cache.FileState.parsed j ∧ Cache.validateCache j = false

theorem loadGo_no_hit (fs : Cache.FS) :
    ∀ (ds : List Int) (tws : List J) (inc : List (String × List J)),
      (∃ d ∈ ds, BadDate fs d) →
      ∀ ts2 inc2, Cache.loadGo fs ds tws inc ≠ Cache.LoadResult.hit ts2 inc2 := by
  intro ds
  induction ds with
  | nil => rintro _ _ ⟨d, hd, _⟩ _ _ _; exact absurd hd (List.not_mem_nil d)
  | cons d ds ih =>
    rintro tws inc ⟨d2, hd2, hbad⟩ ts2 inc2
    rw [Cache.loadGo]
    rcases List.mem_cons.mp hd2 with rfl | hmem
    · rcases hbad with h | h | ⟨j, hj, hval⟩
      · rw [h]; exact fun hc => Cache.LoadResult.noConfusion hc
      · rw [h]; exact fun hc => Cache.LoadResult.noConfusion hc
      · rw [hj]
        simp only [hval, Bool.false_eq_true, if_false]
        exact fun hc => Cache.LoadResult.noConfusion hc
    · cases hfs : fs d with
      | missing => exact fun hc => Cache.LoadResult.noConfusion hc
      | unreadable => exact fun hc => Cache.LoadResult.noConfusion hc
      | parsed data =>
        by_cases hval : Cache.validateCache data
        · simp only [hval, if_true]
          split
          · exact fun hc => Cache.LoadResult.noConfusion hc
          · exact ih _ _ ⟨d2, hmem, hbad⟩ ts2 inc2
        · simp only [hval, Bool.false_eq_true, if_false]
          exact fun hc => Cache.LoadResult.noConfusion hc

/-- C3 (amended).  The original claim described the structural validation as
requiring `id` and `text` to be *strings*; `_validate_cache` checks only
their *presence* (any value passes — see the counterexample).  Amended: for
every period, whenever at least one date in the period's date list has a
cache file that is missing, unreadable, or fails the code's structural
validation — the parsed value must be an object with a `tweets` list whose
every element is an object carrying `id` and `text` keys, and an `includes`
field, if present, that is an object — `load` never returns a combined
result (it returns `None`, or raises while merging a malformed `includes` of
an earlier valid file): there is no partial result. -/
theorem c3_load_all_or_nothing_amended (fs : Cache.FS) (start endT : Int)
    (h : ∃ d ∈ Cache.datesInRange start endT, BadDate fs d) :
    ∀ ts inc, Cache.load fs start endT ≠ Cache.LoadResult.hit ts inc := by
  intro ts inc
  unfold Cache.load
  cases hds : Cache.datesInRange start endT with
  | nil => exact fun hc => Cache.LoadResult.noConfusion hc
  | cons d ds =>
    rw [hds] at h
    exact loadGo_no_hit fs (d :: ds) [] [] h ts inc

/-- Witness for `c3_load_all_or_nothing_amended`: day 0 of the one-day
period is missing entirely, and `load` indeed yields no result. -/
theorem c3_load_all_or_nothing_amended_witness :
    (∃ d ∈ Cache.datesInRange (-32400) 54000, BadDate fsEmpty d) ∧
    ∀ ts inc, Cache.load fsEmpty (-32400) 54000 ≠ Cache.LoadResult.hit ts inc :=
  ⟨⟨0, by rw [datesInRange_day0]; exact List.mem_singleton.mpr rfl, Or.inl rfl⟩,
   c3_load_all_or_nothing_amended fsEmpty (-32400) 54000
     ⟨0, by rw [datesInRange_day0]; exact List.mem_singleton.mpr rfl, Or.inl rfl⟩⟩

/-- C3 (counterexample to the claim as stated).  A day-0 cache file whose
only tweet has numeric `id` and `text` fails the claim's validation (which
demands strings), yet `load` over the one-day period returns a full result:
the code checks only that the keys are present. -/
theorem c3_validation_counterexample :
    specValidateCache dayBad = false ∧
    Cache.validateCache dayBad = true ∧
    Cache.load fsBad (-32400) 54000 =
      Cache.LoadResult.hit [J.jobj [("id", J.jnum 5), ("text", J.jnum 7)]] [] := by
  refine ⟨by decide, by decide, ?_⟩
  unfold Cache.load
  rw [datesInRange_day0]
  decide

/-! ## Claim C1: save/load round trip

Spec-side definition of "the deduplicated union of the input's includes"
(for one input: per category, keep the first occurrence of each identity),
plus well-formedness of an includes bundle. -/

def idFieldFor (k : String) : String := if k = "media" then "media_key" else "id"

def idOfD (f : String) (item : J) : J := (Cache.itemIdOpt f item).getD J.jnull

/-- Per-category first-occurrence deduplication by identity (the spec's
"deduplicated union" for a single bundle). -/
def dedupItems (f : String) (seen : List J) : List J → List J
  | [] => []
  | item :: rest =>
      if idOfD f item ∈ seen then dedupItems f seen rest
      else item :: dedupItems f (seen ++ [idOfD f item]) rest

def arrOf : J → List J
  | J.jarr l => l
  | _ => []

/-- The deduplicated includes bundle, per the spec's words. -/
def specDedupIncludes (incFields : List (String × J)) : List (String × List J) :=
  incFields.map (fun kv => (kv.1, dedupItems (idFieldFor kv.1) [] (arrOf kv.2)))

/-- A well-formed includes bundle: distinct category names, each category an
array of record objects whose identity value is hashable (unhashable
identities make `_merge_includes` raise `TypeError` at the `existing_ids`
set). -/
def IncludesWF (incFields : List (String × J)) : Prop :=
  (incFields.map Prod.fst).Nodup ∧
  ∀ kv ∈ incFields, ∃ l, kv.2 = J.jarr l ∧ ∀ item ∈ l,
    (∃ f2, item = J.jobj f2) ∧ J.hashable (idOfD (idFieldFor kv.1) item) = true

section MergeLemmas

theorem itemIdOpt_isSome_of_obj {item : J} (h : ∃ f2, item = J.jobj f2) (f : String) :
    Cache.itemIdOpt f item = some (idOfD f item) := by
  obtain ⟨f2, rfl⟩ := h
  simp [Cache.itemIdOpt, idOfD]

theorem itemIdHashed_eq {item : J} (h : ∃ f2, item = J.jobj f2) (f : String)
    (hh : J.hashable (idOfD f item) = true) :
    Cache.itemIdHashed f item = some (idOfD f item) := by
  unfold Cache.itemIdHashed
  rw [itemIdOpt_isSome_of_obj h f]
  simp only [Option.bind_eq_bind, Option.some_bind]
  rw [if_pos hh]

theorem assocSet_append_fresh {κ : Type} [DecidableEq κ] {α : Type}
    (l : List (κ × α)) (k : κ) (v : α) (h : k ∉ l.map Prod.fst) :
    assocSet l k v = l ++ [(k, v)] := by
  unfold assocSet
  rw [if_neg (fun hc => h ((anyKey_iff l k).mp hc))]

theorem assocSet_self {κ : Type} [DecidableEq κ] {α : Type}
    (l : List (κ × α)) (k : κ) (v : α)
    (hnd : (l.map Prod.fst).Nodup) (hget : assocGet l k = some v) :
    assocSet l k v = l := by
  unfold assocSet
  rw [if_pos ((anyKey_iff l k).mpr ((assocGet_isSome_iff l k).mp (by rw [hget]; rfl)))]
  induction l with
  | nil => rfl
  | cons kv l ih =>
    rw [List.map_cons, List.nodup_cons] at hnd
    rw [assocGet_cons] at hget
    rw [List.map_cons]
    by_cases h : kv.1 = k
    · subst h
      have hnone : assocGet l kv.1 = none := (assocGet_eq_none_iff l kv.1).mpr hnd.1
      rw [hnone] at hget
      simp only [if_pos rfl] at hget
      have hv : kv.2 = v := by
        by_cases hkk : kv.1 = kv.1
        · simpa [hkk] using hget
        · exact absurd rfl hkk
      subst hv
      have hhead : (if kv.1 = kv.1 then (kv.1, kv.2) else kv) = kv := by simp
      rw [hhead]
      have htail : ∀ kv2 ∈ l, (if kv2.1 = kv.1 then (kv2.1, kv.2) else kv2) = id kv2 := by
        intro kv2 hkv2
        have hne : kv2.1 ≠ kv.1 := fun hc => hnd.1 (hc ▸ List.mem_map_of_mem Prod.fst hkv2)
        simp [hne]
      rw [List.map_congr_left htail, List.map_id]
    · cases hl : assocGet l k with
      | some w =>
          rw [hl] at hget
          have hv : w = v := by simpa using hget
          subst hv
          rw [if_neg h, ih hnd.2 hl]
      | none =>
          rw [hl, if_neg h] at hget
          exact Option.noConfusion hget

theorem assocGet_mapVal {κ : Type} [DecidableEq κ] {α β : Type}
    (l : List (κ × α)) (F : κ → α → β) (k : κ) :
    assocGet (l.map (fun kv => (kv.1, F kv.1 kv.2))) k = (assocGet l k).map (F k) := by
  induction l with
  | nil => simp [assocGet_nil]
  | cons kv l ih =>
    rw [List.map_cons, assocGet_cons, assocGet_cons, ih]
    cases hl : assocGet l k with
    | some w => rfl
    | none =>
        by_cases h : kv.1 = k
        · subst h; simp
        · simp [h]

theorem assocGet_of_mem_nodup {κ : Type} [DecidableEq κ] {α : Type}
    {l : List (κ × α)} {k : κ} {v : α}
    (hnd : (l.map Prod.fst).Nodup) (hmem : (k, v) ∈ l) :
    assocGet l k = some v := by
  induction l with
  | nil => exact absurd hmem (List.not_mem_nil _)
  | cons kv l ih =>
    rw [List.map_cons, List.nodup_cons] at hnd
    rw [assocGet_cons]
    rcases List.mem_cons.mp hmem with rfl | hmem2
    · have hnone : assocGet l k = none := (assocGet_eq_none_iff l k).mpr hnd.1
      rw [hnone]
      simp
    · rw [ih hnd.2 hmem2]

theorem normKeys_fold_fresh {κ : Type} [DecidableEq κ] {α : Type} :
    ∀ (l acc : List (κ × α)), (l.map Prod.fst).Nodup →
      (∀ k, k ∈ l.map Prod.fst → k ∉ acc.map Prod.fst) →
      l.foldl (fun acc kv => assocSet acc kv.1 kv.2) acc = acc ++ l := by
  intro l
  induction l with
  | nil => intro acc _ _; simp
  | cons kv l ih =>
    intro acc hnd hdisj
    rw [List.map_cons, List.nodup_cons] at hnd
    rw [List.foldl_cons, assocSet_append_fresh _ _ _ (hdisj kv.1 (by simp))]
    rw [ih (acc ++ [(kv.1, kv.2)]) hnd.2 ?_]
    · simp
    · intro k hk
      rw [List.map_append, List.mem_append]
      rintro (h1 | h2)
      · exact hdisj k (by simp [hk]) h1
      · simp only [List.map_cons, List.map_nil, List.mem_singleton] at h2
        exact hnd.1 (h2 ▸ hk)

theorem normKeys_self {κ : Type} [DecidableEq κ] {α : Type}
    (l : List (κ × α)) (hnd : (l.map Prod.fst).Nodup) : normKeys l = l := by
  unfold normKeys
  rw [normKeys_fold_fresh l [] hnd (by simp)]
  simp

theorem mapM_itemId (f : String) :
    ∀ (l : List J),
      (∀ item ∈ l, (∃ f2, item = J.jobj f2) ∧ J.hashable (idOfD f item) = true) →
      l.mapM (Cache.itemIdHashed f) = some (l.map (idOfD f)) := by
  intro l
  induction l with
  | nil => intro _; rfl
  | cons i l ih =>
    intro hwf
    rw [List.mapM_cons, itemIdHashed_eq (hwf i (by simp)).1 f (hwf i (by simp)).2,
      ih (fun item hm => hwf item (by simp [hm]))]
    rfl

theorem dedupItems_subset (f : String) :
    ∀ (items : List J) (seen : List J) (x : J), x ∈ dedupItems f seen items → x ∈ items := by
  intro items
  induction items with
  | nil => intro seen x hx; rw [dedupItems] at hx; exact absurd hx (List.not_mem_nil x)
  | cons i rest ih =>
    intro seen x hx
    rw [dedupItems] at hx
    by_cases hid : idOfD f i ∈ seen
    · rw [if_pos hid] at hx
      exact List.mem_cons_of_mem i (ih seen x hx)
    · rw [if_neg hid] at hx
      rcases List.mem_cons.mp hx with rfl | hx2
      · exact List.mem_cons_self x rest
      · exact List.mem_cons_of_mem i (ih (seen ++ [idOfD f i]) x hx2)

theorem dedup_covers (f : String) :
    ∀ (items : List J) (seen : List J) (item : J), item ∈ items →
      idOfD f item ∈ seen ∨ idOfD f item ∈ (dedupItems f seen items).map (idOfD f) := by
  intro items
  induction items with
  | nil => intro seen item h; exact absurd h (List.not_mem_nil item)
  | cons i rest ih =>
    intro seen item hmem
    rw [dedupItems]
    by_cases hid : idOfD f i ∈ seen
    · rw [if_pos hid]
      rcases List.mem_cons.mp hmem with rfl | h2
      · exact Or.inl hid
      · exact ih seen item h2
    · rw [if_neg hid]
      rcases List.mem_cons.mp hmem with rfl | h2
      · exact Or.inr (by simp)
      · rcases ih (seen ++ [idOfD f i]) item h2 with h3 | h3
        · rcases List.mem_append.mp h3 with h4 | h4
          · exact Or.inl h4
          · simp only [List.mem_singleton] at h4
            exact Or.inr (by simp [h4])
        · exact Or.inr (by simp [h3])

theorem mergeCat_dedup (f : String) :
    ∀ (items ex ids : List J),
      (∀ item ∈ items, (∃ f2, item = J.jobj f2) ∧ J.hashable (idOfD f item) = true) →
      Cache.mergeCat f ex ids items =
        some (ex ++ dedupItems f ids items,
              ids ++ (dedupItems f ids items).map (idOfD f)) := by
  intro items
  induction items with
  | nil =>
    intro ex ids _
    rw [show Cache.mergeCat f ex ids [] = some (ex, ids) from rfl, dedupItems]
    simp
  | cons i rest ih =>
    intro ex ids hwf
    rw [Cache.mergeCat, dedupItems,
      itemIdHashed_eq (hwf i (by simp)).1 f (hwf i (by simp)).2]
    simp only [Option.bind_eq_bind, Option.some_bind]
    by_cases hid : idOfD f i ∈ ids
    · rw [if_pos hid, if_pos hid, ih ex ids (fun x hx => hwf x (by simp [hx]))]
    · rw [if_neg hid, if_neg hid,
        ih (ex ++ [i]) (ids ++ [idOfD f i]) (fun x hx => hwf x (by simp [hx]))]
      simp

theorem mergeCat_noop (f : String) :
    ∀ (items ex ids : List J),
      (∀ item ∈ items, (∃ f2, item = J.jobj f2) ∧
        J.hashable (idOfD f item) = true ∧ idOfD f item ∈ ids) →
      Cache.mergeCat f ex ids items = some (ex, ids) := by
  intro items
  induction items with
  | nil => intro ex ids _; rfl
  | cons i rest ih =>
    intro ex ids h
    rw [Cache.mergeCat, itemIdHashed_eq (h i (by simp)).1 f (h i (by simp)).2.1]
    simp only [Option.bind_eq_bind, Option.some_bind]
    rw [if_pos (h i (by simp)).2.2]
    exact ih ex ids (fun x hx => h x (by simp [hx]))

theorem idFieldFor_eq (k : String) :
    (if k = "media" then "media_key" else "id") = idFieldFor k := rfl

theorem mergeOneCat_fresh (merged : List (String × List J)) (k : String) (v : J)
    (hfresh : k ∉ merged.map Prod.fst)
    (hwf : ∃ l, v = J.jarr l ∧ ∀ item ∈ l,
      (∃ f2, item = J.jobj f2) ∧ J.hashable (idOfD (idFieldFor k) item) = true) :
    Cache.mergeOneCat merged k v =
      some (merged ++ [(k, dedupItems (idFieldFor k) [] (arrOf v))]) := by
  obtain ⟨l, rfl, hitems⟩ := hwf
  unfold Cache.mergeOneCat
  rw [(assocGet_eq_none_iff merged k).mpr hfresh]
  simp only [Option.getD_none, List.mapM_nil, iterVal, idFieldFor_eq, Option.pure_def,
    Option.bind_eq_bind, Option.some_bind]
  rw [mergeCat_dedup (idFieldFor k) l [] [] hitems]
  simp only [List.nil_append, Option.bind_eq_bind, Option.some_bind]
  rw [assocSet_append_fresh merged k _ hfresh]
  rfl

theorem mergeOneCat_stable (merged : List (String × List J)) (k : String) (v : J)
    (hnd : (merged.map Prod.fst).Nodup)
    (hwf : ∃ l, v = J.jarr l ∧ ∀ item ∈ l,
      (∃ f2, item = J.jobj f2) ∧ J.hashable (idOfD (idFieldFor k) item) = true)
    (hget : assocGet merged k = some (dedupItems (idFieldFor k) [] (arrOf v))) :
    Cache.mergeOneCat merged k v = some merged := by
  obtain ⟨l, rfl, hitems⟩ := hwf
  unfold Cache.mergeOneCat
  rw [hget]
  simp only [Option.getD_some, iterVal, idFieldFor_eq]
  have harr : arrOf (J.jarr l) = l := rfl
  rw [harr] at hget ⊢
  have hsub : ∀ item ∈ dedupItems (idFieldFor k) [] l,
      (∃ f2, item = J.jobj f2) ∧ J.hashable (idOfD (idFieldFor k) item) = true :=
    fun item hm => hitems item (dedupItems_subset (idFieldFor k) l [] item hm)
  rw [mapM_itemId (idFieldFor k) _ hsub]
  simp only [Option.bind_eq_bind, Option.some_bind]
  rw [mergeCat_noop (idFieldFor k) l _ _ ?_]
  · simp only [Option.bind_eq_bind, Option.some_bind]
    rw [assocSet_self merged k _ hnd hget]
  · intro item hm
    refine ⟨(hitems item hm).1, (hitems item hm).2, ?_⟩
    rcases dedup_covers (idFieldFor k) l [] item hm with h | h
    · exact absurd h (List.not_mem_nil _)
    · exact h

theorem keys_specDedup (incFields : List (String × J)) :
    (specDedupIncludes incFields).map Prod.fst = incFields.map Prod.fst := by
  unfold specDedupIncludes
  rw [List.map_map]
  exact List.map_congr_left (fun kv _ => rfl)

theorem assocGet_specDedup (incFields : List (String × J)) (k : String) :
    assocGet (specDedupIncludes incFields) k =
      (assocGet incFields k).map (fun v => dedupItems (idFieldFor k) [] (arrOf v)) := by
  induction incFields with
  | nil => simp [specDedupIncludes, assocGet_nil]
  | cons kv l ih =>
    unfold specDedupIncludes at ih ⊢
    rw [List.map_cons, assocGet_cons, assocGet_cons, ih]
    cases hl : assocGet l k with
    | some w => rfl
    | none =>
        by_cases h : kv.1 = k
        · subst h; simp
        · simp [h]

theorem mergeFold_fresh :
    ∀ (cats : List (String × J)) (M : List (String × List J)),
      (cats.map Prod.fst).Nodup →
      (∀ kv ∈ cats, ∃ l, kv.2 = J.jarr l ∧ ∀ item ∈ l,
        (∃ f2, item = J.jobj f2) ∧ J.hashable (idOfD (idFieldFor kv.1) item) = true) →
      (∀ k ∈ cats.map Prod.fst, k ∉ M.map Prod.fst) →
      cats.foldlM (fun merged kv => Cache.mergeOneCat merged kv.1 kv.2) M =
        some (M ++ specDedupIncludes cats) := by
  intro cats
  induction cats with
  | nil => intro M _ _ _; simp [specDedupIncludes]
  | cons kv cats ih =>
    intro M hnd hwf hdisj
    rw [List.map_cons, List.nodup_cons] at hnd
    rw [List.foldlM_cons,
      mergeOneCat_fresh M kv.1 kv.2 (hdisj kv.1 (by simp)) (hwf kv (by simp))]
    simp only [Option.bind_eq_bind, Option.some_bind]
    rw [ih (M ++ [(kv.1, dedupItems (idFieldFor kv.1) [] (arrOf kv.2))]) hnd.2
      (fun kv2 h2 => hwf kv2 (by simp [h2])) ?_]
    · simp [specDedupIncludes]
    · intro k hk
      rw [List.map_append, List.mem_append]
      rintro (h1 | h2)
      · exact hdisj k (by simp [hk]) h1
      · simp only [List.map_cons, List.map_nil, List.mem_singleton] at h2
        exact hnd.1 (h2 ▸ hk)

theorem mergeFold_stable :
    ∀ (cats : List (String × J)) (D : List (String × List J)),
      (D.map Prod.fst).Nodup →
      (∀ kv ∈ cats, (∃ l, kv.2 = J.jarr l ∧ ∀ item ∈ l,
        (∃ f2, item = J.jobj f2) ∧ J.hashable (idOfD (idFieldFor kv.1) item) = true) ∧
        assocGet D kv.1 = some (dedupItems (idFieldFor kv.1) [] (arrOf kv.2))) →
      cats.foldlM (fun merged kv => Cache.mergeOneCat merged kv.1 kv.2) D = some D := by
  intro cats
  induction cats with
  | nil => intro D _ _; rfl
  | cons kv cats ih =>
    intro D hnd h
    rw [List.foldlM_cons,
      mergeOneCat_stable D kv.1 kv.2 hnd (h kv (by simp)).1 (h kv (by simp)).2]
    simp only [Option.bind_eq_bind, Option.some_bind]
    exact ih D hnd (fun kv2 h2 => h kv2 (by simp [h2]))

/-- `_merge_includes({}, inc)` is exactly the spec's per-category
first-occurrence deduplication. -/
theorem mergeIncludes_empty (incFields : List (String × J)) (h : IncludesWF incFields) :
    Cache.mergeIncludes [] incFields = some (specDedupIncludes incFields) := by
  unfold Cache.mergeIncludes
  rw [normKeys_self incFields h.1]
  have h0 : normKeys ([] : List (String × List J)) = [] := rfl
  rw [h0, mergeFold_fresh incFields [] h.1 h.2 (by simp)]
  simp

/-- Merging the same bundle into its own deduplication changes nothing. -/
theorem mergeIncludes_stable (incFields : List (String × J)) (h : IncludesWF incFields) :
    Cache.mergeIncludes (specDedupIncludes incFields) incFields =
      some (specDedupIncludes incFields) := by
  unfold Cache.mergeIncludes
  have hndD : ((specDedupIncludes incFields).map Prod.fst).Nodup := by
    rw [keys_specDedup]; exact h.1
  rw [normKeys_self incFields h.1, normKeys_self _ hndD]
  refine mergeFold_stable incFields (specDedupIncludes incFields) hndD ?_
  intro kv hkv
  refine ⟨h.2 kv hkv, ?_⟩
  rw [assocGet_specDedup, assocGet_of_mem_nodup h.1 ?_]
  · rfl
  · exact hkv

/-- Membership in some group's tweet list. -/
def memGroups (g : List (Int × List J)) (t : J) : Prop :=
  ∃ d ts, assocGet g d = some ts ∧ t ∈ ts

theorem memGroups_groupPush (g : List (Int × List J)) (d0 : Int) (t0 t2 : J) :
    memGroups (Cache.groupPush g d0 t0) t2 ↔ memGroups g t2 ∨ t2 = t0 := by
  constructor
  · rintro ⟨d, ts, hget, ht⟩
    rw [Cache.assocGet_groupPush] at hget
    by_cases h : d = d0
    · rw [if_pos h] at hget
      subst h
      obtain rfl : (assocGet g d).getD [] ++ [t0] = ts := Option.some.inj hget
      rcases List.mem_append.mp ht with h2 | h2
      · cases hold : assocGet g d with
        | some old =>
          rw [hold] at h2
          exact Or.inl ⟨d, old, hold, h2⟩
        | none =>
          rw [hold] at h2
          exact absurd h2 (List.not_mem_nil t2)
      · exact Or.inr (List.mem_singleton.mp h2)
    · rw [if_neg h] at hget
      exact Or.inl ⟨d, ts, hget, ht⟩
  · rintro (⟨d, ts, hget, ht⟩ | rfl)
    · by_cases h : d = d0
      · subst h
        refine ⟨d, (assocGet g d).getD [] ++ [t0], ?_, ?_⟩
        · rw [Cache.assocGet_groupPush, if_pos rfl]
        · rw [hget]
          exact List.mem_append.mpr (Or.inl ht)
      · exact ⟨d, ts, by rw [Cache.assocGet_groupPush, if_neg h]; exact hget, ht⟩
    · refine ⟨d0, (assocGet g d0).getD [] ++ [t2], ?_, ?_⟩
      · rw [Cache.assocGet_groupPush, if_pos rfl]
      · exact List.mem_append.mpr (Or.inr (List.mem_singleton.mpr rfl))

theorem keys_groupPush_nodup (g : List (Int × List J)) (d : Int) (t : J)
    (h : (g.map Prod.fst).Nodup) : ((Cache.groupPush g d t).map Prod.fst).Nodup := by
  rw [Cache.keys_groupPush]
  by_cases hd : d ∈ g.map Prod.fst
  · rwa [if_pos hd]
  · rw [if_neg hd]
    simpa using List.Nodup.append h (List.nodup_singleton d) (by simpa using hd)

theorem groupFold_char (tweets : List J) :
    ∀ acc : List (Int × List J),
      (∀ t ∈ tweets, ∃ n, Cache.parseCreatedAt t = some n) →
      ∃ groups,
        tweets.foldlM (fun groups t =>
          (Cache.parseCreatedAt t).map (fun n => Cache.groupPush groups (Cache.dateOf n) t)) acc
          = some groups ∧
        (∀ t2, memGroups groups t2 ↔ memGroups acc t2 ∨ t2 ∈ tweets) ∧
        ((acc.map Prod.fst).Nodup → (groups.map Prod.fst).Nodup) := by
  induction tweets with
  | nil =>
    intro acc _
    exact ⟨acc, rfl, fun t2 => by simp, id⟩
  | cons t tweets ih =>
    intro acc hp
    obtain ⟨n, hn⟩ := hp t (by simp)
    obtain ⟨groups, hfold, hchar, hnd⟩ :=
      ih (Cache.groupPush acc (Cache.dateOf n) t) (fun t2 h2 => hp t2 (by simp [h2]))
    refine ⟨groups, ?_, ?_, ?_⟩
    · rw [List.foldlM_cons, hn]
      simpa using hfold
    · intro t2
      rw [hchar t2, memGroups_groupPush]
      simp only [List.mem_cons]
      tauto
    · intro hka
      exact hnd (keys_groupPush_nodup acc (Cache.dateOf n) t hka)

theorem groupTweetsByDate_char (tweets : List J)
    (hp : ∀ t ∈ tweets, ∃ n, Cache.parseCreatedAt t = some n) :
    ∃ groups, Cache.groupTweetsByDate tweets = some groups ∧
      (∀ t2, memGroups groups t2 ↔ t2 ∈ tweets) ∧
      (groups.map Prod.fst).Nodup := by
  obtain ⟨groups, hfold, hchar, hnd⟩ := groupFold_char tweets [] hp
  refine ⟨groups, hfold, ?_, hnd (by simp)⟩
  intro t2
  rw [hchar t2]
  have : ¬ memGroups [] t2 := by
    rintro ⟨d, ts, hget, _⟩
    rw [assocGet_nil] at hget
    exact Option.noConfusion hget
  tauto

namespace Cache

/-- One `load` step over a present, valid file. -/
theorem loadGo_step_parsed (fs : FS) (d : Int) (ds : List Int) (tws : List J)
    (inc inc2 : List (String × List J)) (j : J)
    (hfs : fs d = FileState.parsed j) (hval : validateCache j = true)
    (hm : mergeIncludes inc (incFieldsOfFile j) = some inc2) :
    loadGo fs (d :: ds) tws inc = loadGo fs ds (tws ++ tweetsOfFile j) inc2 := by
  rw [loadGo, hfs]
  simp only [hval, if_true, hm]

/-- One `load` step over a missing or unreadable file. -/
theorem loadGo_step_absent (fs : FS) (d : Int) (ds : List Int) (tws : List J)
    (inc : List (String × List J))
    (hfs : fs d = FileState.missing ∨ fs d = FileState.unreadable) :
    loadGo fs (d :: ds) tws inc = LoadResult.miss := by
  rcases hfs with h | h <;> rw [loadGo, h]

end Cache

/-- The shape `_validate_cache` demands of each tweet: an object carrying
`id` and `text` keys. -/
def tweetOK (t : J) : Bool :=
  (match t with | J.jobj _ => true | _ => false) && t.jHas "id" && t.jHas "text"

theorem dayData_jGet_tweets (ts : List J) (inc : J) :
    (Cache.dayData ts inc).jGet "tweets" = some (J.jarr ts) := rfl

theorem dayData_jGet_includes (ts : List J) (inc : J) :
    (Cache.dayData ts inc).jGet "includes" = some inc := rfl

theorem tweetsOfFile_dayData (ts : List J) (inc : J) :
    Cache.tweetsOfFile (Cache.dayData ts inc) = ts := rfl

theorem incFieldsOfFile_dayData (ts : List J) (incFields : List (String × J)) :
    Cache.incFieldsOfFile (Cache.dayData ts (J.jobj incFields)) = incFields := rfl

theorem validate_dayData (ts : List J) (incFields : List (String × J))
    (h : ∀ t ∈ ts, tweetOK t = true) :
    Cache.validateCache (Cache.dayData ts (J.jobj incFields)) = true := by
  show (ts.all (fun t => (match t with | J.jobj _ => true | _ => false)
    && t.jHas "id" && t.jHas "text") && true) = true
  rw [Bool.and_true, List.all_eq_true]
  intro t ht
  simpa [tweetOK] using h t ht

/-- The tweet list stored for date `d` (empty when the date is unaffected). -/
def dsTweets (groups : List (Int × List J)) (d : Int) : List J :=
  (assocGet groups d).getD []

theorem loadGo_alldays (fs : Cache.FS) (groups : List (Int × List J))
    (incFields : List (String × J)) (hwf : IncludesWF incFields) :
    ∀ (ds : List Int) (tws : List J),
      (∀ d ∈ ds, (assocGet groups d).isSome ∧
        fs d = Cache.FileState.parsed
          (Cache.dayData (dsTweets groups d) (J.jobj incFields)) ∧
        (∀ t ∈ dsTweets groups d, tweetOK t = true)) →
      Cache.loadGo fs ds tws (specDedupIncludes incFields) =
        Cache.LoadResult.hit (tws ++ (ds.map (dsTweets groups)).flatten)
          (specDedupIncludes incFields) := by
  intro ds
  induction ds with
  | nil => intro tws _; simp [Cache.loadGo]
  | cons d ds ih =>
    intro tws hall
    obtain ⟨hsome, hfile, hok⟩ := hall d (by simp)
    rw [Cache.loadGo_step_parsed fs d ds tws _ (specDedupIncludes incFields) _ hfile
      (validate_dayData _ _ hok) ?_]
    · rw [tweetsOfFile_dayData,
        ih (tws ++ dsTweets groups d) (fun d2 h2 => hall d2 (by simp [h2]))]
      simp
    · rw [incFieldsOfFile_dayData]
      exact mergeIncludes_stable incFields hwf

theorem loadGo_first (fs : Cache.FS) (groups : List (Int × List J))
    (incFields : List (String × J)) (hwf : IncludesWF incFields)
    (d : Int) (ds : List Int)
    (hall : ∀ d2 ∈ d :: ds, (assocGet groups d2).isSome ∧
      fs d2 = Cache.FileState.parsed
        (Cache.dayData (dsTweets groups d2) (J.jobj incFields)) ∧
      (∀ t ∈ dsTweets groups d2, tweetOK t = true)) :
    Cache.loadGo fs (d :: ds) [] [] =
      Cache.LoadResult.hit (((d :: ds).map (dsTweets groups)).flatten)
        (specDedupIncludes incFields) := by
  obtain ⟨hsome, hfile, hok⟩ := hall d (by simp)
  rw [Cache.loadGo_step_parsed fs d ds [] [] (specDedupIncludes incFields) _ hfile
    (validate_dayData _ _ hok) ?_]
  · rw [tweetsOfFile_dayData,
      loadGo_alldays fs groups incFields hwf ds _ (fun d2 h2 => hall d2 (by simp [h2]))]
    simp
  · rw [incFieldsOfFile_dayData]
    exact mergeIncludes_empty incFields hwf

def tDay2 : J := J.jobj [("id", J.jstr "p3"), ("text", J.jstr "z"), ("created_at", J.jnum 172800)]

theorem datesInRange_3day : Cache.datesInRange (-32400) 226800 = [0, 1, 2] := by
  rw [Cache.datesInRange, show Cache.dateOf (-32400) = 0 from by decide]
  rw [Cache.datesFrom]
  norm_num [Cache.localMidnight]
  rw [Cache.datesFrom]
  norm_num [Cache.localMidnight]
  rw [Cache.datesFrom]
  norm_num [Cache.localMidnight]
  rw [Cache.datesFrom]
  norm_num [Cache.localMidnight]

/-- C1 (counterexample to the claim as stated).  Input posts fall on days 0
and 2; a period covering both affected dates necessarily also lists the gap
day 1 (the date list is contiguous), whose file does not exist, so the
all-or-nothing rule makes `save`-then-`load` return `None` — not the claimed
non-miss result with the input's posts. -/
theorem c1_roundtrip_counterexample :
    Cache.datesInRange (-32400) 226800 = [0, 1, 2] ∧
    Cache.groupTweetsByDate [exT1, tDay2] = some [(0, [exT1]), (2, [tDay2])] ∧
    (Cache.save fsEmpty ⟨[exT1, tDay2], exIncUsers⟩).map
      (fun r => Cache.load r.1 (-32400) 226800) = some Cache.LoadResult.miss := by
  refine ⟨datesInRange_3day, by decide, ?_⟩
  obtain ⟨fs2, hsave, hfile, hkeep⟩ :=
    Cache.save_spec fsEmpty ⟨[exT1, tDay2], exIncUsers⟩ [(0, [exT1]), (2, [tDay2])] (by decide)
  rw [hsave]
  have hload : Cache.load fs2 (-32400) 226800 = Cache.LoadResult.miss := by
    unfold Cache.load
    rw [datesInRange_3day]
    show Cache.loadGo fs2 [0, 1, 2] [] [] = Cache.LoadResult.miss
    rw [Cache.loadGo_step_parsed fs2 0 [1, 2] [] [] [("users", [u1])] _
      (hfile 0 [exT1] (by decide)) (by decide) (by decide)]
    have h1 : fs2 1 = Cache.FileState.missing := (hkeep 1 (by decide)).trans rfl
    exact Cache.loadGo_step_absent fs2 1 [2] _ _ (Or.inl h1)
  show some (Cache.load fs2 (-32400) 226800) = some Cache.LoadResult.miss
  rw [hload]

/-- C1 (amended).  The round trip holds when the load period's date list
consists exactly of the affected dates (for non-contiguous affected dates no
such period exists, and any covering period hits the all-or-nothing rule on
a gap date — see the counterexample).  Amended: for every valid input
`{posts, includes}` — every post an object with `id`/`text` and a parseable
`created_at`, `includes` a well-formed bundle: distinct categories, each an
array of record objects whose identity value is hashable (an unhashable
identity would make `_merge_includes` raise `TypeError` during load) — with
at least one post,
`save` followed by `load` over a period whose date list equals the set of
affected local dates returns a non-miss result whose posts, as a set
ignoring order, equal the input's posts, and whose includes equal the
per-category deduplicated union (first occurrence per identity) of the
input's includes. -/
theorem c1_roundtrip_amended (fs : Cache.FS) (tweets : List J)
    (incFields : List (String × J)) (start endT : Int)
    (groups : List (Int × List J))
    (hg : Cache.groupTweetsByDate tweets = some groups)
    (hparse : ∀ t ∈ tweets, ∃ n, Cache.parseCreatedAt t = some n)
    (hok : ∀ t ∈ tweets, tweetOK t = true)
    (hwf : IncludesWF incFields)
    (hne : tweets ≠ [])
    (hcover : ∀ d, d ∈ Cache.datesInRange start endT ↔ d ∈ groups.map Prod.fst) :
    ∃ fs2 paths loadedTweets,
      Cache.save fs ⟨tweets, J.jobj incFields⟩ = some (fs2, paths) ∧
      Cache.load fs2 start endT =
        Cache.LoadResult.hit loadedTweets (specDedupIncludes incFields) ∧
      (∀ t, t ∈ loadedTweets ↔ t ∈ tweets) := by
  obtain ⟨groups2, hg2, hchar, hnd⟩ := groupTweetsByDate_char tweets hparse
  rw [hg] at hg2
  have he : groups2 = groups := (Option.some.inj hg2).symm
  rw [he] at hchar hnd
  obtain ⟨fs2, hsave, hfile, hkeep⟩ := Cache.save_spec fs ⟨tweets, J.jobj incFields⟩ groups hg
  have hall : ∀ d2 ∈ Cache.datesInRange start endT,
      (assocGet groups d2).isSome ∧
      fs2 d2 = Cache.FileState.parsed
        (Cache.dayData (dsTweets groups d2) (J.jobj incFields)) ∧
      (∀ t ∈ dsTweets groups d2, tweetOK t = true) := by
    intro d2 hd2
    have hk : d2 ∈ groups.map Prod.fst := (hcover d2).mp hd2
    have hs : (assocGet groups d2).isSome := (assocGet_isSome_iff groups d2).mpr hk
    obtain ⟨ts, hts⟩ := Option.isSome_iff_exists.mp hs
    have hdst : dsTweets groups d2 = ts := by rw [dsTweets, hts]; rfl
    refine ⟨hs, ?_, ?_⟩
    · rw [hdst]
      exact hfile d2 ts hts
    · intro t ht
      rw [hdst] at ht
      exact hok t ((hchar t).mp ⟨d2, ts, hts, ht⟩)
  refine ⟨fs2, groups.map Prod.fst,
    ((Cache.datesInRange start endT).map (dsTweets groups)).flatten, hsave, ?_, ?_⟩
  · unfold Cache.load
    cases hds : Cache.datesInRange start endT with
    | nil =>
      obtain ⟨t, ht⟩ := List.exists_mem_of_ne_nil tweets hne
      obtain ⟨d, ts, hget, _⟩ := (hchar t).mpr ht
      have hk : d ∈ groups.map Prod.fst :=
        (assocGet_isSome_iff groups d).mp (by rw [hget]; rfl)
      have : d ∈ Cache.datesInRange start endT := (hcover d).mpr hk
      rw [hds] at this
      exact absurd this (List.not_mem_nil d)
    | cons d0 rest =>
      show Cache.loadGo fs2 (d0 :: rest) [] [] = _
      rw [loadGo_first fs2 groups incFields hwf d0 rest (hds ▸ hall)]
  · intro t
    constructor
    · intro ht
      rw [List.mem_flatten] at ht
      obtain ⟨l, hl, htl⟩ := ht
      rw [List.mem_map] at hl
      obtain ⟨d, hd, rfl⟩ := hl
      obtain ⟨hs, _, _⟩ := hall d hd
      obtain ⟨ts, hts⟩ := Option.isSome_iff_exists.mp hs
      refine (hchar t).mp ⟨d, ts, hts, ?_⟩
      rw [dsTweets, hts] at htl
      exact htl
    · intro ht
      obtain ⟨d, ts, hget, htl⟩ := (hchar t).mpr ht
      rw [List.mem_flatten]
      refine ⟨dsTweets groups d, List.mem_map_of_mem (dsTweets groups) ?_, ?_⟩
      · exact (hcover d).mpr ((assocGet_isSome_iff groups d).mp (by rw [hget]; rfl))
      · rw [dsTweets, hget]
        exact htl

/-- Witness for `c1_roundtrip_amended` at a concrete one-day input. -/
theorem c1_roundtrip_amended_witness :
    (Cache.groupTweetsByDate [exT1] = some [(0, [exT1])] ∧
     (∀ t ∈ [exT1], tweetOK t = true) ∧
     IncludesWF [("users", J.jarr [u1])] ∧
     [exT1] ≠ [] ∧
     (∀ d, d ∈ Cache.datesInRange (-32400) 54000 ↔
        d ∈ ([(0, [exT1])].map Prod.fst : List Int))) ∧
    ∃ fs2 paths loadedTweets,
      Cache.save fsEmpty ⟨[exT1], J.jobj [("users", J.jarr [u1])]⟩ = some (fs2, paths) ∧
      Cache.load fs2 (-32400) 54000 =
        Cache.LoadResult.hit loadedTweets (specDedupIncludes [("users", J.jarr [u1])]) ∧
      (∀ t, t ∈ loadedTweets ↔ t ∈ [exT1]) := by
  have hwf : IncludesWF [("users", J.jarr [u1])] := by
    refine ⟨by decide, ?_⟩
    intro kv hkv
    rw [List.mem_singleton] at hkv
    subst hkv
    refine ⟨[u1], rfl, ?_⟩
    intro item hitem
    rw [List.mem_singleton] at hitem
    subst hitem
    exact ⟨⟨[("id", J.jstr "1")], rfl⟩, by decide⟩
  have hcover : ∀ d, d ∈ Cache.datesInRange (-32400) 54000 ↔
      d ∈ ([(0, [exT1])].map Prod.fst : List Int) := by
    intro d
    rw [datesInRange_day0]
    rfl
  have hparse : ∀ t ∈ [exT1], ∃ n, Cache.parseCreatedAt t = some n := by
    intro t ht
    rw [List.mem_singleton] at ht
    subst ht
    exact ⟨0, by decide⟩
  exact ⟨⟨by decide, by decide, hwf, by decide, hcover⟩,
    c1_roundtrip_amended fsEmpty [exT1] [("users", J.jarr [u1])] (-32400) 54000
      [(0, [exT1])] (by decide) hparse (by decide) hwf (by decide) hcover⟩

/-! ## Claim C6: totality of the chain walk under acyclicity -/

namespace Formatter

/-- `k`-fold application of the child→parent map (the walk's `current`
after `k` steps). -/
def iterParent (cpt : List (J × J)) : Nat → J → Option J
  | 0, x => some x
  | n + 1, x => (assocGet cpt x).bind (iterParent cpt n)

/-- Bounded acyclicity of the same-day reply relation: no key returns to
itself in 1..|cpt| steps.  Any cycle of the finite relation has all its
nodes among the keys and minimal length at most the number of keys, so this
decidable bound expresses "the child-to-parent mapping contains no cycle". -/
def AcyclicB (cpt : List (J × J)) : Bool :=
  (cpt.map Prod.fst).all (fun x =>
    (List.range cpt.length).all (fun i => iterParent cpt (i + 1) x != some x))

theorem walkAux_snd_false_iff (cpt : List (J × J)) :
    ∀ (n : Nat) (x : J), (walkAux cpt n x).2 = false ↔ (iterParent cpt n x).isSome := by
  intro n
  induction n with
  | zero => intro x; simp [walkAux, iterParent]
  | succ n ih =>
    intro x
    rw [walkAux, iterParent]
    cases hg : assocGet cpt x with
    | none => simp
    | some p => simpa using ih p

theorem iter_add (cpt : List (J × J)) (a b : Nat) :
    ∀ x, iterParent cpt (a + b) x = (iterParent cpt a x).bind (iterParent cpt b) := by
  induction a with
  | zero => intro x; simp [iterParent]
  | succ a ih =>
    intro x
    rw [Nat.succ_add, iterParent, iterParent]
    cases hg : assocGet cpt x with
    | none => simp
    | some p => simpa using ih p

theorem iter_isSome_of_le (cpt : List (J × J)) (i n : Nat) (x : J) (hle : i ≤ n)
    (hs : (iterParent cpt n x).isSome) : (iterParent cpt i x).isSome := by
  rw [show n = i + (n - i) from by omega, iter_add] at hs
  cases hg : iterParent cpt i x with
  | none => rw [hg] at hs; simp at hs
  | some y => rfl

theorem iter_succ_step (cpt : List (J × J)) (i : Nat) (x : J)
    (hs : (iterParent cpt (i + 1) x).isSome) :
    ∃ y, iterParent cpt i x = some y ∧ (assocGet cpt y).isSome := by
  rw [iter_add cpt i 1] at hs
  cases hg : iterParent cpt i x with
  | none => rw [hg] at hs; simp at hs
  | some y =>
    rw [hg] at hs
    refine ⟨y, rfl, ?_⟩
    rw [Option.some_bind] at hs
    rw [iterParent] at hs
    cases hg2 : assocGet cpt y with
    | none => rw [hg2] at hs; simp at hs
    | some z => rfl

theorem no_long_iter (cpt : List (J × J)) (hacy : AcyclicB cpt = true) (x : J) :
    ¬ (iterParent cpt (cpt.length + 1) x).isSome = true := by
  intro hs
  have hf : ∀ i, i ≤ cpt.length →
      iterParent cpt i x = some ((iterParent cpt i x).getD J.jnull) ∧
      (assocGet cpt ((iterParent cpt i x).getD J.jnull)).isSome := by
    intro i hi
    obtain ⟨y, hy, hgy⟩ := iter_succ_step cpt i x
      (iter_isSome_of_le cpt (i + 1) (cpt.length + 1) x (by omega) hs)
    rw [hy]
    exact ⟨rfl, hgy⟩
  have hmaps : ∀ i ∈ Finset.range (cpt.length + 1),
      (iterParent cpt i x).getD J.jnull ∈ (cpt.map Prod.fst).toFinset := by
    intro i hi
    rw [Finset.mem_range] at hi
    obtain ⟨_, hgy⟩ := hf i (by omega)
    rw [List.mem_toFinset]
    exact (assocGet_isSome_iff cpt _).mp hgy
  have hcard : ((cpt.map Prod.fst).toFinset).card < (Finset.range (cpt.length + 1)).card := by
    rw [Finset.card_range]
    calc ((cpt.map Prod.fst).toFinset).card ≤ (cpt.map Prod.fst).length :=
          List.toFinset_card_le _
      _ = cpt.length := List.length_map _ _
      _ < cpt.length + 1 := by omega
  obtain ⟨i, hi, j, hj, hne, hfe⟩ :=
    Finset.exists_ne_map_eq_of_card_lt_of_maps_to hcard hmaps
  rw [Finset.mem_range] at hi hj
  have key : ∀ i j : Nat, i < j → j ≤ cpt.length →
      (iterParent cpt i x).getD J.jnull = (iterParent cpt j x).getD J.jnull → False := by
    intro i j hlt hjle heq
    obtain ⟨hi_eq, hi_get⟩ := hf i (by omega)
    obtain ⟨hj_eq, _⟩ := hf j hjle
    have hcycle : iterParent cpt (j - i) ((iterParent cpt i x).getD J.jnull) =
        some ((iterParent cpt i x).getD J.jnull) := by
      have h1 : iterParent cpt (i + (j - i)) x = (iterParent cpt i x).bind
          (iterParent cpt (j - i)) := iter_add cpt i (j - i) x
      rw [show i + (j - i) = j from by omega, hj_eq, hi_eq] at h1
      rw [Option.some_bind] at h1
      rw [← h1, heq]
    have hmem : (iterParent cpt i x).getD J.jnull ∈ cpt.map Prod.fst :=
      (assocGet_isSome_iff cpt _).mp hi_get
    have hall := hacy
    unfold AcyclicB at hall
    rw [List.all_eq_true] at hall
    have hall2 := hall _ hmem
    rw [List.all_eq_true] at hall2
    have hk : (j - i - 1) ∈ List.range cpt.length := by
      rw [List.mem_range]; omega
    have := hall2 _ hk
    rw [bne_iff_ne] at this
    rw [show j - i - 1 + 1 = j - i from by omega] at this
    exact this hcycle
  rcases Nat.lt_trichotomy i j with hlt | heq | hgt
  · exact key i j hlt (by omega) hfe
  · exact hne heq
  · exact key j i hgt (by omega) hfe.symm

/-- Under bounded acyclicity the walk with fuel `|cpt| + 1` completes. -/
theorem walk_ok_of_acyclic (cpt : List (J × J)) (hacy : AcyclicB cpt = true) (x : J) :
    (walkAux cpt (cpt.length + 1) x).2 = true := by
  have h := no_long_iter cpt hacy x
  have h2 := walkAux_snd_false_iff cpt (cpt.length + 1) x
  cases hw : (walkAux cpt (cpt.length + 1) x).2 with
  | false => exact absurd (h2.mp hw) h
  | true => rfl

/-- A two-element reply cycle (`a` replies to `b`, `b` replies to `a`). -/
def cptCyc : List (J × J) := [(J.jstr "a", J.jstr "b"), (J.jstr "b", J.jstr "a")]

theorem cptCyc_iter_isSome :
    ∀ n : Nat, (iterParent cptCyc n (J.jstr "a")).isSome ∧
      (iterParent cptCyc n (J.jstr "b")).isSome := by
  intro n
  induction n with
  | zero => exact ⟨rfl, rfl⟩
  | succ n ih =>
    constructor
    · rw [iterParent, show assocGet cptCyc (J.jstr "a") = some (J.jstr "b") from by decide]
      simpa using ih.2
    · rw [iterParent, show assocGet cptCyc (J.jstr "b") = some (J.jstr "a") from by decide]
      simpa using ih.1

end Formatter

/-- C6.  Under the stated acyclicity precondition the backward walk of
`_build_self_reply_chains` terminates: the model's fuel `|cpt| + 1` (the
walk visits at most one node per `child_to_parent` entry plus the tail)
always completes, so the detector is total there.  The second conjunct
shows the totality rests solely on that precondition — the walk carries no
visited-set guard, and on a two-element reply cycle it never completes for
any amount of fuel (the Python loop diverges). -/
theorem c6_chain_walk_total :
    (∀ (tweets : List J) (tweetMap cpt : List (J × J)),
      Formatter.buildTweetMap tweets = some tweetMap →
      Formatter.childToParent tweets tweetMap = some cpt →
      Formatter.AcyclicB cpt = true →
      ∀ x : J, (Formatter.walkAux cpt (cpt.length + 1) x).2 = true) ∧
    (∀ n : Nat, (Formatter.walkAux Formatter.cptCyc n (J.jstr "a")).2 = false) := by
  constructor
  · intro tweets tweetMap cpt _ _ hacy x
    exact Formatter.walk_ok_of_acyclic cpt hacy x
  · intro n
    exact (Formatter.walkAux_snd_false_iff Formatter.cptCyc n (J.jstr "a")).mpr
      (Formatter.cptCyc_iter_isSome n).1

/-- Test data: a same-day self-reply chain A ← B ← C. -/
def exChainA : J := J.jobj [("id", J.jstr "A"), ("text", J.jstr "a"), ("created_at", J.jnum 0)]

def exChainB : J := J.jobj [("id", J.jstr "B"), ("text", J.jstr "b"), ("created_at", J.jnum 60),
  ("referenced_tweets", J.jarr [J.jobj [("type", J.jstr "replied_to"), ("id", J.jstr "A")]])]

def exChainC : J := J.jobj [("id", J.jstr "C"), ("text", J.jstr "c"), ("created_at", J.jnum 120),
  ("referenced_tweets", J.jarr [J.jobj [("type", J.jstr "replied_to"), ("id", J.jstr "B")]])]

/-- Witness for `c6_chain_walk_total` at the concrete acyclic A←B←C day. -/
theorem c6_chain_walk_total_witness :
    (Formatter.buildTweetMap [exChainA, exChainB, exChainC] =
      some [(J.jstr "A", exChainA), (J.jstr "B", exChainB), (J.jstr "C", exChainC)] ∧
     Formatter.childToParent [exChainA, exChainB, exChainC]
        [(J.jstr "A", exChainA), (J.jstr "B", exChainB), (J.jstr "C", exChainC)] =
      some [(J.jstr "B", J.jstr "A"), (J.jstr "C", J.jstr "B")] ∧
     Formatter.AcyclicB [(J.jstr "B", J.jstr "A"), (J.jstr "C", J.jstr "B")] = true) ∧
    ∀ x : J, (Formatter.walkAux [(J.jstr "B", J.jstr "A"), (J.jstr "C", J.jstr "B")]
      ([(J.jstr "B", J.jstr "A"), (J.jstr "C", J.jstr "B")].length + 1) x).2 = true :=
  ⟨⟨by decide, by decide, by decide⟩,
   c6_chain_walk_total.1 [exChainA, exChainB, exChainC]
     [(J.jstr "A", exChainA), (J.jstr "B", exChainB), (J.jstr "C", exChainC)]
     [(J.jstr "B", J.jstr "A"), (J.jstr "C", J.jstr "B")]
     (by decide) (by decide) (by decide)⟩

/-! ## Claims C5 and C10: self-reply chain detection -/

theorem foldlM_preserve_mem {σ α : Type} (step : σ → α → Option σ) (P : σ → Prop) :
    ∀ (l : List α), (∀ s a s2, a ∈ l → step s a = some s2 → P s → P s2) →
      ∀ s s2, l.foldlM step s = some s2 → P s → P s2 := by
  intro l
  induction l with
  | nil =>
    intro _ s s2 hfold hp
    obtain rfl : s = s2 := Option.some.inj hfold
    exact hp
  | cons a l ih =>
    intro hstep s s2 hfold hp
    rw [List.foldlM_cons] at hfold
    cases hstep1 : step s a with
    | none => rw [hstep1] at hfold; exact Option.noConfusion hfold
    | some s1 =>
      rw [hstep1] at hfold
      rw [Option.bind_eq_bind, Option.some_bind] at hfold
      exact ih (fun s a2 s2 hm => hstep s a2 s2 (by simp [hm])) s1 s2 hfold
        (hstep s a s1 (by simp) hstep1 hp)

theorem foldl_preserve_mem {σ α : Type} (step : σ → α → σ) (P : σ → Prop) :
    ∀ (l : List α), (∀ s a, a ∈ l → P s → P (step s a)) →
      ∀ s, P s → P (l.foldl step s) := by
  intro l
  induction l with
  | nil => intro _ s hp; exact hp
  | cons a l ih =>
    intro hstep s hp
    rw [List.foldl_cons]
    exact ih (fun s a2 hm => hstep s a2 (by simp [hm])) (step s a) (hstep s a (by simp) hp)

/-- Every binding of `tweet_map` stores an input tweet under its own id. -/
theorem buildTweetMap_spec (tweets : List J) (tweetMap : List (J × J))
    (h : Formatter.buildTweetMap tweets = some tweetMap) :
    ∀ i t, assocGet tweetMap i = some t → t ∈ tweets ∧ t.jGet "id" = some i := by
  refine foldlM_preserve_mem _
    (fun m => ∀ i t, assocGet m i = some t → t ∈ tweets ∧ t.jGet "id" = some i)
    tweets ?_ [] tweetMap h ?_
  · intro s a s2 hmem hstep hp
    cases a with
    | jobj f =>
      simp only [Formatter.buildTweetMap, Option.bind_eq_bind] at hstep
      cases hid : (J.jobj f).jGet "id" with
      | none => rw [hid] at hstep; exact Option.noConfusion hstep
      | some tid =>
        rw [hid, Option.some_bind] at hstep
        by_cases hh : J.hashable tid = true
        · rw [if_pos hh] at hstep
          obtain rfl : assocSet s tid (J.jobj f) = s2 := Option.some.inj hstep
          intro i t hget
          rw [assocGet_assocSet] at hget
          by_cases hi : i = tid
          · rw [if_pos hi] at hget
            obtain rfl : J.jobj f = t := Option.some.inj hget
            exact ⟨hmem, hi ▸ hid⟩
          · rw [if_neg hi] at hget
            exact hp i t hget
        · rw [if_neg hh] at hstep
          exact Option.noConfusion hstep
    | jnull => exact Option.noConfusion hstep
    | jbool b => exact Option.noConfusion hstep
    | jnum n => exact Option.noConfusion hstep
    | jstr s3 => exact Option.noConfusion hstep
    | jarr l2 => exact Option.noConfusion hstep
  · intro i t hget
    rw [assocGet_nil] at hget
    exact Option.noConfusion hget

/-- Where a `child_to_parent` entry can come from: a tweet of the day with
that id carrying a `replied_to` reference to a parent present in the day's
`tweet_map`. -/
def CptOrigin (tweets : List J) (tweetMap : List (J × J)) (k p : J) : Prop :=
  (assocGet tweetMap p).isSome ∧
  ∃ t2 ∈ tweets, t2.jGet "id" = some k ∧
    ∃ refs, iterList (t2.jGet "referenced_tweets") = some refs ∧
    ∃ r ∈ refs, r.jGet "type" = some (J.jstr "replied_to") ∧ r.jGet "id" = some p

theorem childToParent_spec (tweets : List J) (tweetMap cpt : List (J × J))
    (h : Formatter.childToParent tweets tweetMap = some cpt) :
    ∀ k p, assocGet cpt k = some p → CptOrigin tweets tweetMap k p := by
  refine foldlM_preserve_mem _
    (fun m => ∀ k p, assocGet m k = some p → CptOrigin tweets tweetMap k p)
    tweets ?_ [] cpt h ?_
  · intro s a s2 hmem hstep hp
    cases a with
    | jobj f =>
      simp only [Option.bind_eq_bind] at hstep
      cases hrefs : iterList ((J.jobj f).jGet "referenced_tweets") with
      | none => rw [hrefs] at hstep; exact Option.noConfusion hstep
      | some refs =>
        rw [hrefs, Option.some_bind] at hstep
        refine foldlM_preserve_mem _
          (fun m => ∀ k p, assocGet m k = some p → CptOrigin tweets tweetMap k p)
          refs ?_ s s2 hstep hp
        intro sIn ref sIn2 hrmem hrstep hpIn
        cases ref with
        | jobj rf =>
          simp only [Option.bind_eq_bind] at hrstep
          cases hrt : (J.jobj rf).jGet "type" with
          | none => rw [hrt] at hrstep; exact Option.noConfusion hrstep
          | some rt =>
            rw [hrt, Option.some_bind] at hrstep
            by_cases htype : rt = J.jstr "replied_to"
            · rw [if_pos htype] at hrstep
              cases hrid : (J.jobj rf).jGet "id" with
              | none => rw [hrid] at hrstep; exact Option.noConfusion hrstep
              | some rid =>
                rw [hrid, Option.some_bind] at hrstep
                cases hhit : Formatter.refGet tweetMap rid with
                | none => rw [hhit] at hrstep; exact Option.noConfusion hrstep
                | some hitv =>
                  rw [hhit, Option.some_bind] at hrstep
                  have hhitv : hitv = assocGet tweetMap rid := by
                    unfold Formatter.refGet at hhit
                    by_cases hh : J.hashable rid = true
                    · rw [if_pos hh] at hhit
                      exact (Option.some.inj hhit).symm
                    · rw [if_neg hh] at hhit
                      exact Option.noConfusion hhit
                  cases hitv with
                  | none =>
                    obtain rfl : sIn = sIn2 := Option.some.inj hrstep
                    exact hpIn
                  | some hitT =>
                    cases htid : (J.jobj f).jGet "id" with
                    | none => rw [htid] at hrstep; exact Option.noConfusion hrstep
                    | some tid =>
                      rw [htid, Option.some_bind] at hrstep
                      by_cases hh2 : J.hashable tid = true
                      · rw [if_pos hh2] at hrstep
                        obtain rfl : assocSet sIn tid rid = sIn2 := Option.some.inj hrstep
                        intro k p hget
                        rw [assocGet_assocSet] at hget
                        by_cases hk : k = tid
                        · rw [if_pos hk] at hget
                          obtain rfl : rid = p := Option.some.inj hget
                          refine ⟨by rw [← hhitv]; rfl, J.jobj f, hmem, hk ▸ htid,
                            refs, hrefs, J.jobj rf, hrmem, htype ▸ hrt, hrid⟩
                        · rw [if_neg hk] at hget
                          exact hpIn k p hget
                      · rw [if_neg hh2] at hrstep
                        exact Option.noConfusion hrstep
            · rw [if_neg htype] at hrstep
              obtain rfl : sIn = sIn2 := Option.some.inj hrstep
              exact hpIn
        | jnull => exact Option.noConfusion hrstep
        | jbool b => exact Option.noConfusion hrstep
        | jnum n => exact Option.noConfusion hrstep
        | jstr s3 => exact Option.noConfusion hrstep
        | jarr l2 => exact Option.noConfusion hrstep
    | jnull => exact Option.noConfusion hstep
    | jbool b => exact Option.noConfusion hstep
    | jnum n => exact Option.noConfusion hstep
    | jstr s3 => exact Option.noConfusion hstep
    | jarr l2 => exact Option.noConfusion hstep
  · intro k p hget
    rw [assocGet_nil] at hget
    exact Option.noConfusion hget

namespace Formatter

theorem walkAux_fst_ne_nil (cpt : List (J × J)) (n : Nat) (x : J) :
    (walkAux cpt (n + 1) x).1 ≠ [] := by
  rw [walkAux]
  cases assocGet cpt x <;> simp

theorem walkAux_getLast (cpt : List (J × J)) :
    ∀ (n : Nat) (x : J), (walkAux cpt n x).2 = true →
      ∃ z, (walkAux cpt n x).1.getLast? = some z ∧ assocGet cpt z = none := by
  intro n
  induction n with
  | zero => intro x hok; exact absurd hok (by simp [walkAux])
  | succ n ih =>
    intro x hok
    rw [walkAux] at hok ⊢
    cases hg : assocGet cpt x with
    | none => exact ⟨x, rfl, hg⟩
    | some p =>
      rw [hg] at hok
      simp only at hok
      obtain ⟨z, hz, hgz⟩ := ih p hok
      refine ⟨z, ?_, hgz⟩
      simp only
      have hne : (walkAux cpt n p).1 ≠ [] := by
        cases n with
        | zero => rw [walkAux] at hok; exact absurd hok (by simp)
        | succ m => exact walkAux_fst_ne_nil cpt m p
      cases hl : (walkAux cpt n p).1 with
      | nil => exact absurd hl hne
      | cons y ys =>
        rw [hl] at hz
        rw [List.getLast?_cons_cons]
        exact hz

theorem walkAux_dropLast_isSome (cpt : List (J × J)) :
    ∀ (n : Nat) (x : J) (y : J), y ∈ (walkAux cpt n x).1.dropLast →
      (assocGet cpt y).isSome := by
  intro n
  induction n with
  | zero => intro x y hy; rw [walkAux] at hy; exact absurd hy (by simp)
  | succ n ih =>
    intro x y hy
    rw [walkAux] at hy
    cases hg : assocGet cpt x with
    | none =>
      rw [hg] at hy
      exact absurd hy (by simp)
    | some p =>
      rw [hg] at hy
      simp only at hy
      cases hl : (walkAux cpt n p).1 with
      | nil =>
        rw [hl] at hy
        exact absurd hy (by simp)
      | cons z zs =>
        rw [hl, List.dropLast_cons₂] at hy
        rcases List.mem_cons.mp hy with rfl | hy2
        · rw [hg]; rfl
        · exact ih p y (by rw [hl]; exact hy2)

theorem walkAux_mem_isSome (cpt tweetMap : List (J × J))
    (hvals : ∀ c p, assocGet cpt c = some p → (assocGet tweetMap p).isSome) :
    ∀ (n : Nat) (x : J), (assocGet tweetMap x).isSome →
      ∀ y ∈ (walkAux cpt n x).1, (assocGet tweetMap y).isSome := by
  intro n
  induction n with
  | zero => intro x _ y hy; rw [walkAux] at hy; exact absurd hy (by simp)
  | succ n ih =>
    intro x hx y hy
    rw [walkAux] at hy
    cases hg : assocGet cpt x with
    | none =>
      rw [hg] at hy
      have hyx : y = x := by simpa using hy
      subst hyx
      exact hx
    | some p =>
      rw [hg] at hy
      simp only at hy
      rcases List.mem_cons.mp hy with rfl | hy2
      · exact hx
      · exact ih p (hvals x p hg) y hy2

end Formatter

theorem mem_reverse_tail {α : Type} (l : List α) (x : α) (h : x ∈ l.reverse.tail) :
    x ∈ l.dropLast := by
  rcases List.eq_nil_or_concat l with rfl | ⟨A, a, rfl⟩
  · simp at h
  · rw [List.concat_eq_append] at h ⊢
    rw [List.reverse_append, List.reverse_singleton, List.singleton_append,
      List.tail_cons, List.mem_reverse] at h
    rwa [List.dropLast_concat]

/-- Invariant of the chain-building fold: every recorded chain is a walk's
head-first id sequence of length ≥ 2 mapped through `tweet_map`, keyed by
its first id (which has no parent), its non-first ids already suppressed,
and every suppressed id has a parent. -/
def GoodState (tweetMap cpt : List (J × J)) (acc : List (J × List J) × List J) : Prop :=
  (∀ h c, assocGet acc.1 h = some c →
    ∃ ids : List J,
      c = ids.map (fun tid => (assocGet tweetMap tid).getD J.jnull) ∧
      ids.head? = some h ∧ 2 ≤ ids.length ∧
      (∀ tid ∈ ids.tail, tid ∈ acc.2) ∧
      (∀ tid ∈ ids, (assocGet tweetMap tid).isSome) ∧
      assocGet cpt h = none) ∧
  (∀ i ∈ acc.2, (assocGet cpt i).isSome)

theorem chainStep_preserves (tweetMap cpt : List (J × J))
    (hvals : ∀ c p, assocGet cpt c = some p → (assocGet tweetMap p).isSome)
    (hacy : Formatter.AcyclicB cpt = true)
    (acc : List (J × List J) × List J) (tailId : J)
    (htail : (assocGet tweetMap tailId).isSome)
    (hg : GoodState tweetMap cpt acc) :
    GoodState tweetMap cpt (Formatter.chainStep tweetMap cpt acc tailId) := by
  unfold Formatter.chainStep
  simp only
  set w := Formatter.walkAux cpt (cpt.length + 1) tailId with hw
  have hok : w.2 = true := Formatter.walk_ok_of_acyclic cpt hacy tailId
  by_cases hlen : w.1.reverse.length > 1
  · rw [if_pos hlen]
    obtain ⟨z, hz, hgz⟩ := Formatter.walkAux_getLast cpt (cpt.length + 1) tailId hok
    have hhead : w.1.reverse.head? = some z := by
      rw [List.head?_reverse]
      exact hz
    obtain ⟨z2, zs, hcons⟩ : ∃ z2 zs, w.1.reverse = z2 :: zs := by
      cases hr : w.1.reverse with
      | nil => rw [hr] at hlen; simp at hlen
      | cons z2 zs => exact ⟨z2, zs, rfl⟩
    have hz2 : z2 = z := by
      rw [hcons] at hhead
      exact Option.some.inj hhead
    subst hz2
    have hheadD : w.1.reverse.headD J.jnull = z2 := by rw [hcons]; rfl
    constructor
    · intro h c hget
      rw [assocGet_assocSet] at hget
      by_cases hh : h = w.1.reverse.headD J.jnull
      · rw [if_pos hh] at hget
        obtain rfl : w.1.reverse.map (fun tid => (assocGet tweetMap tid).getD J.jnull) = c :=
          Option.some.inj hget
        refine ⟨w.1.reverse, rfl, ?_, ?_, ?_, ?_, ?_⟩
        · rw [hheadD] at hh
          rw [hhead, hh]
        · omega
        · intro tid htid
          exact List.mem_append_right acc.2 htid
        · intro tid htid
          exact Formatter.walkAux_mem_isSome cpt tweetMap hvals (cpt.length + 1) tailId
            htail tid (List.mem_reverse.mp htid)
        · rw [hh, hheadD]
          exact hgz
      · rw [if_neg hh] at hget
        obtain ⟨ids, hc, hhd, hln, hsup, hsome, hnone⟩ := hg.1 h c hget
        exact ⟨ids, hc, hhd, hln,
          fun tid htid => List.mem_append_left _ (hsup tid htid), hsome, hnone⟩
    · intro i hi
      rcases List.mem_append.mp hi with h1 | h1
      · exact hg.2 i h1
      · have : i ∈ w.1.dropLast := mem_reverse_tail w.1 i h1
        exact Formatter.walkAux_dropLast_isSome cpt (cpt.length + 1) tailId i this
  · rw [if_neg hlen]
    exact hg

theorem buildSelfReplyChains_good (tweets : List J) (tweetMap cpt : List (J × J))
    (ch : List (J × List J)) (sup : List J)
    (hmap : Formatter.buildTweetMap tweets = some tweetMap)
    (hcpt : Formatter.childToParent tweets tweetMap = some cpt)
    (hacy : Formatter.AcyclicB cpt = true)
    (hb : Formatter.buildSelfReplyChains tweets = some (ch, sup)) :
    GoodState tweetMap cpt (ch, sup) := by
  unfold Formatter.buildSelfReplyChains at hb
  rw [hmap] at hb
  simp only [Option.bind_eq_bind, Option.some_bind] at hb
  rw [hcpt] at hb
  simp only [Option.bind_eq_bind, Option.some_bind, Option.pure_def] at hb
  have hvals : ∀ c p, assocGet cpt c = some p → (assocGet tweetMap p).isSome :=
    fun c p hget => (childToParent_spec tweets tweetMap cpt hcpt c p hget).1
  have hfold := foldl_preserve_mem (Formatter.chainStep tweetMap cpt)
    (GoodState tweetMap cpt)
    ((tweetMap.map (fun kv => kv.1)).filter
      (fun i => i ∉ cpt.map (fun kv => kv.2)))
    (fun s a hmem hp => by
      refine chainStep_preserves tweetMap cpt hvals hacy s a ?_ hp
      have := List.mem_filter.mp hmem
      exact (assocGet_isSome_iff tweetMap a).mpr (by
        simpa using this.1))
    ([], [])
    (by
      constructor
      · intro h c hget
        rw [assocGet_nil] at hget
        exact Option.noConfusion hget
      · intro i hi
        exact absurd hi (List.not_mem_nil i))
  rw [← Option.some.inj hb]
  exact hfold

theorem countP_eq_one_of_nodup_map {α β : Type} [DecidableEq β] (l : List α) (f : α → β)
    (v : β) (hnd : (l.map f).Nodup) (hex : ∃ a ∈ l, f a = v) :
    l.countP (fun a => decide (f a = v)) = 1 := by
  induction l with
  | nil => obtain ⟨a, ha, _⟩ := hex; exact absurd ha (List.not_mem_nil a)
  | cons a l ih =>
    rw [List.map_cons, List.nodup_cons] at hnd
    rw [List.countP_cons]
    by_cases hfa : f a = v
    · have hzero : l.countP (fun b => decide (f b = v)) = 0 := by
        rw [List.countP_eq_zero]
        intro b hb
        simp only [decide_eq_true_eq]
        intro hfb
        exact hnd.1 (by rw [hfa, ← hfb]; exact List.mem_map_of_mem f hb)
      rw [hzero]
      simp [hfa]
    · have hl : ∃ b ∈ l, f b = v := by
        obtain ⟨b, hb, hfb⟩ := hex
        rcases List.mem_cons.mp hb with rfl | hb2
        · exact absurd hfb hfa
        · exact ⟨b, hb2, hfb⟩
      rw [ih hnd.2 hl]
      simp [hfa]

/-- C10.  For a day with an acyclic same-day reply relation and distinct
post ids, the detector's output satisfies: every recorded chain has length
at least 2, is keyed by the id of its first (head) element — the order the
code calls chronological — every non-first member's id is suppressed, no
chain-head id is ever suppressed, and exactly one of the day's posts bears
the head id; so `format_day`'s loop (`formatter.py` lines 359-369) reaches
that post exactly once, never skips it as suppressed, and renders it through
the thread branch. -/
theorem c10_detector_invariant
    (tweets : List J) (tweetMap cpt : List (J × J)) (ch : List (J × List J)) (sup : List J)
    (hmap : Formatter.buildTweetMap tweets = some tweetMap)
    (hcpt : Formatter.childToParent tweets tweetMap = some cpt)
    (hacy : Formatter.AcyclicB cpt = true)
    (hb : Formatter.buildSelfReplyChains tweets = some (ch, sup))
    (hnd : (tweets.map (fun t => t.jGet "id")).Nodup) :
    ∀ h c, assocGet ch h = some c →
      2 ≤ c.length ∧
      (∃ t0, c.head? = some t0 ∧ t0.jGet "id" = some h) ∧
      (∀ t2 ∈ c.tail, ∃ i, t2.jGet "id" = some i ∧ i ∈ sup) ∧
      h ∉ sup ∧
      tweets.countP (fun t => decide (t.jGet "id" = some h)) = 1 := by
  intro h c hget
  have hgood := buildSelfReplyChains_good tweets tweetMap cpt ch sup hmap hcpt hacy hb
  obtain ⟨ids, hc, hhd, hln, hsup, hsome, hnone⟩ := hgood.1 h c hget
  obtain ⟨rest, rfl⟩ : ∃ rest, ids = h :: rest := by
    cases ids with
    | nil => exact absurd hhd (by simp)
    | cons a rest => exact ⟨rest, by rw [Option.some.inj (by simpa using hhd : some a = some h)]⟩
  have hsomeh : (assocGet tweetMap h).isSome := hsome h (by simp)
  obtain ⟨t0, ht0⟩ := Option.isSome_iff_exists.mp hsomeh
  obtain ⟨ht0mem, ht0id⟩ := buildTweetMap_spec tweets tweetMap hmap h t0 ht0
  refine ⟨?_, ?_, ?_, ?_, ?_⟩
  · rw [hc, List.length_map]
    exact hln
  · refine ⟨t0, ?_, ht0id⟩
    rw [hc]
    simp [ht0]
  · intro t2 ht2
    rw [hc, List.map_cons, List.tail_cons] at ht2
    obtain ⟨tid, htid, rfl⟩ := List.mem_map.mp ht2
    have htidsup : tid ∈ sup := hsup tid (by simpa using htid)
    have htidsome : (assocGet tweetMap tid).isSome := hsome tid (by simp [htid])
    obtain ⟨t3, ht3⟩ := Option.isSome_iff_exists.mp htidsome
    obtain ⟨_, ht3id⟩ := buildTweetMap_spec tweets tweetMap hmap tid t3 ht3
    refine ⟨tid, ?_, htidsup⟩
    rw [ht3]
    simpa using ht3id
  · intro hmem
    have := hgood.2 h hmem
    rw [hnone] at this
    simp at this
  · exact countP_eq_one_of_nodup_map tweets (fun t => t.jGet "id") (some h) hnd
      ⟨t0, ht0mem, ht0id⟩

/-- Witness for `c10_detector_invariant` on the concrete A←B←C day. -/
theorem c10_detector_invariant_witness :
    (Formatter.buildTweetMap [exChainA, exChainB, exChainC] =
       some [(J.jstr "A", exChainA), (J.jstr "B", exChainB), (J.jstr "C", exChainC)] ∧
     Formatter.childToParent [exChainA, exChainB, exChainC]
        [(J.jstr "A", exChainA), (J.jstr "B", exChainB), (J.jstr "C", exChainC)] =
       some [(J.jstr "B", J.jstr "A"), (J.jstr "C", J.jstr "B")] ∧
     Formatter.AcyclicB [(J.jstr "B", J.jstr "A"), (J.jstr "C", J.jstr "B")] = true ∧
     Formatter.buildSelfReplyChains [exChainA, exChainB, exChainC] =
       some ([(J.jstr "A", [exChainA, exChainB, exChainC])], [J.jstr "B", J.jstr "C"]) ∧
     ([exChainA, exChainB, exChainC].map (fun t => t.jGet "id")).Nodup) ∧
    (∀ h c, assocGet [(J.jstr "A", [exChainA, exChainB, exChainC])] h = some c →
      2 ≤ c.length ∧
      (∃ t0, c.head? = some t0 ∧ t0.jGet "id" = some h) ∧
      (∀ t2 ∈ c.tail, ∃ i, t2.jGet "id" = some i ∧ i ∈ [J.jstr "B", J.jstr "C"]) ∧
      h ∉ [J.jstr "B", J.jstr "C"] ∧
      [exChainA, exChainB, exChainC].countP (fun t => decide (t.jGet "id" = some h)) = 1) :=
  ⟨⟨by decide, by decide, by decide, by decide, by decide⟩,
   c10_detector_invariant [exChainA, exChainB, exChainC]
     [(J.jstr "A", exChainA), (J.jstr "B", exChainB), (J.jstr "C", exChainC)]
     [(J.jstr "B", J.jstr "A"), (J.jstr "C", J.jstr "B")]
     [(J.jstr "A", [exChainA, exChainB, exChainC])] [J.jstr "B", J.jstr "C"]
     (by decide) (by decide) (by decide) (by decide) (by decide)⟩

/-- A post replying only to an id outside the day's set. -/
def exOut : J := J.jobj [("id", J.jstr "D"), ("text", J.jstr "d"), ("created_at", J.jnum 0),
  ("referenced_tweets", J.jarr [J.jobj [("type", J.jstr "replied_to"), ("id", J.jstr "Z")]])]

/-- C5.  First conjunct: on the same-day posts A ← B ← C (B replies to A,
C replies to B, A replies to nothing in the set) the detector returns
`chain_heads = {A: [A, B, C]}` (head first) and `suppressed = {B, C}`.
Remaining conjuncts: a post whose `replied_to` references all target ids
outside the day's post set contributes no `child_to_parent` entry and is
never suppressed — it is never chained as a reply. -/
theorem c5_chain_detection
    (tweets : List J) (tweetMap cpt : List (J × J)) (ch : List (J × List J)) (sup : List J)
    (t tid : J)
    (hmap : Formatter.buildTweetMap tweets = some tweetMap)
    (hcpt : Formatter.childToParent tweets tweetMap = some cpt)
    (hacy : Formatter.AcyclicB cpt = true)
    (hb : Formatter.buildSelfReplyChains tweets = some (ch, sup))
    (hnd : (tweets.map (fun t => t.jGet "id")).Nodup)
    (ht : t ∈ tweets) (hid : t.jGet "id" = some tid)
    (houtside : ∀ refs, iterList (t.jGet "referenced_tweets") = some refs →
      ∀ r ∈ refs, r.jGet "type" = some (J.jstr "replied_to") →
      ∀ rid, r.jGet "id" = some rid → assocGet tweetMap rid = none) :
    (Formatter.buildSelfReplyChains [exChainA, exChainB, exChainC] =
      some ([(J.jstr "A", [exChainA, exChainB, exChainC])], [J.jstr "B", J.jstr "C"])) ∧
    assocGet cpt tid = none ∧ tid ∉ sup := by
  have hnone : assocGet cpt tid = none := by
    cases hcg : assocGet cpt tid with
    | none => rfl
    | some p =>
      obtain ⟨hpsome, t2, ht2, hid2, refs, hrefs, r, hr, hrt, hrid⟩ :=
        childToParent_spec tweets tweetMap cpt hcpt tid p hcg
      have ht2t : t2 = t :=
        List.inj_on_of_nodup_map hnd ht2 ht (by rw [hid2, hid])
      subst ht2t
      rw [houtside refs hrefs r hr hrt p hrid] at hpsome
      exact absurd hpsome (by simp)
  refine ⟨by decide, hnone, ?_⟩
  intro hmem
  have hgood := buildSelfReplyChains_good tweets tweetMap cpt ch sup hmap hcpt hacy hb
  have := hgood.2 tid hmem
  rw [hnone] at this
  simp at this

/-- Witness for `c5_chain_detection`: the one-post day `[exOut]`, whose only
reply targets the absent id `"Z"`. -/
theorem c5_chain_detection_witness :
    (Formatter.buildTweetMap [exOut] = some [(J.jstr "D", exOut)] ∧
     Formatter.childToParent [exOut] [(J.jstr "D", exOut)] = some [] ∧
     Formatter.AcyclicB [] = true ∧
     Formatter.buildSelfReplyChains [exOut] = some ([], []) ∧
     ([exOut].map (fun t => t.jGet "id")).Nodup ∧
     exOut ∈ [exOut] ∧ exOut.jGet "id" = some (J.jstr "D")) ∧
    ((Formatter.buildSelfReplyChains [exChainA, exChainB, exChainC] =
      some ([(J.jstr "A", [exChainA, exChainB, exChainC])], [J.jstr "B", J.jstr "C"])) ∧
     assocGet ([] : List (J × J)) (J.jstr "D") = none ∧ J.jstr "D" ∉ ([] : List J)) := by
  have houtside : ∀ refs, iterList (exOut.jGet "referenced_tweets") = some refs →
      ∀ r ∈ refs, r.jGet "type" = some (J.jstr "replied_to") →
      ∀ rid, r.jGet "id" = some rid → assocGet [(J.jstr "D", exOut)] rid = none := by
    intro refs hrefs r hr hrt rid hrid
    have hrefs2 : refs = [J.jobj [("type", J.jstr "replied_to"), ("id", J.jstr "Z")]] :=
      (Option.some.inj hrefs).symm
    subst hrefs2
    rw [List.mem_singleton] at hr
    subst hr
    have : rid = J.jstr "Z" := by
      have h2 : some (J.jstr "Z") = some rid := by rw [← hrid]; rfl
      exact (Option.some.inj h2).symm
    subst this
    decide
  exact ⟨⟨by decide, by decide, by decide, by decide, by decide, by decide, by decide⟩,
    c5_chain_detection [exOut] [(J.jstr "D", exOut)] [] [] [] exOut (J.jstr "D")
      (by decide) (by decide) (by decide) (by decide) (by decide) (by decide) (by decide)
      houtside⟩

/-! ## Claim C7: quote-render depth cap -/

/-- Post `i` of a quote chain, with body `TEXTi`, quoting post `next`. -/
def quoteChainPost (i : Nat) (next : Option Nat) : J :=
  J.jobj ([("id", J.jstr (toString i)), ("text", J.jstr ("TEXT" ++ toString i))] ++
    (match next with
     | some k => [("referenced_tweets",
         J.jarr [J.jobj [("type", J.jstr "quoted"), ("id", J.jstr (toString k))]])]
     | none => []))

/-- Reference graph of the six-level chain 1 → 2 → 3 → 4 → 5 → 6. -/
def rmSix : List (J × J) :=
  [(J.jstr "2", quoteChainPost 2 (some 3)), (J.jstr "3", quoteChainPost 3 (some 4)),
   (J.jstr "4", quoteChainPost 4 (some 5)), (J.jstr "5", quoteChainPost 5 (some 6)),
   (J.jstr "6", quoteChainPost 6 none)]

/-- What the renderer produces for the six-level chain: five nesting levels,
the sixth level's content absent. -/
def sixLines : List String :=
  ["> TEXT1", ">", "> > TEXT2", "> >", "> > > TEXT3", "> > >",
   "> > > > TEXT4", "> > > >", "> > > > > TEXT5"]

/-- A post quoting itself: a reference cycle. -/
def exQc : J := J.jobj [("id", J.jstr "S"), ("text", J.jstr "CYC"),
  ("referenced_tweets", J.jarr [J.jobj [("type", J.jstr "quoted"), ("id", J.jstr "S")]])]

def rmCyc : List (J × J) := [(J.jstr "S", exQc)]

/-- The cyclic self-quote renders exactly five nesting levels. -/
def cycLines : List String :=
  ["> CYC", ">", "> > CYC", "> >", "> > > CYC", "> > >",
   "> > > > CYC", "> > > >", "> > > > > CYC"]

/-- Substring test: Python `sub in s`. -/
def strContains (s sub : String) : Bool := containsSub sub.data s.data

/-- C7.  The quoted-block renderer recurses only while `depth < 5`: at depth
5 and beyond its output no longer depends on the reference graph at all
(first conjunct), a six-level reference chain renders exactly five nested
quote levels with the fifth level's content present and the sixth level's
content nowhere in the output (second conjunct), and even a cyclic reference
graph is truncated at five levels (third conjunct). -/
theorem c7_quote_depth_cap :
    (∀ (t : J) (m m2 : List (J × J)) (mm : List (String × String)) (d : Nat),
      5 ≤ d → Formatter.formatQuoted t m d mm = Formatter.formatQuoted t m2 d mm) ∧
    (Formatter.formatQuoted (quoteChainPost 1 (some 2)) rmSix 1 [] = some sixLines ∧
     (∃ l ∈ sixLines, strContains l "TEXT5" = true) ∧
     (∀ l ∈ sixLines, strContains l "TEXT6" = false)) ∧
    Formatter.formatQuoted exQc rmCyc 1 [] = some cycLines := by
  refine ⟨?_, ⟨by decide, by decide, by decide⟩, by decide⟩
  intro t m m2 mm d hd
  unfold Formatter.formatQuoted
  rw [show Formatter.MAXQUOTEDEPTH - d = 0 from by unfold Formatter.MAXQUOTEDEPTH; omega]
  rfl

/-- Witness for `c7_quote_depth_cap`'s first conjunct at depth 5. -/
theorem c7_quote_depth_cap_witness :
    (5 : Nat) ≤ 5 ∧
    Formatter.formatQuoted exQc rmCyc 5 [] = Formatter.formatQuoted exQc [] 5 [] :=
  ⟨by decide, c7_quote_depth_cap.1 exQc rmCyc [] [] 5 (by decide)⟩

/-! ## Claim C8: analytics aggregation -/

namespace Formatter

/-- Total form of the test `_is_plain_retweet` computes: the post carries a
`retweeted`-type reference (regardless of any other content). -/
def hasRetweetedRefB (t : J) : Bool :=
  match t.jGet "referenced_tweets" with
  | some (J.jarr rs) =>
      rs.any (fun r => decide (r.jGet "type" = some (J.jstr "retweeted")))
  | _ => false

/-- Well-formed `referenced_tweets`: absent, or a list of objects each
carrying a `type` key — exactly what `_is_plain_retweet` reads without
raising. -/
def refsWF (t : J) : Bool :=
  match t.jGet "referenced_tweets" with
  | none => true
  | some (J.jarr rs) =>
      rs.all (fun r => match r with
        | J.jobj _ => (r.jGet "type").isSome
        | _ => false)
  | some _ => false

/-- The value the `.get(..., 0)` metric read yields for one counter. -/
def metricVal (t : J) (k : String) : Int :=
  let m := (t.jGet "public_metrics").getD (J.jobj [])
  match (m.jGet k).getD (J.jnum 0) with
  | J.jnum n => n
  | J.jbool b => if b then 1 else 0
  | _ => 0

/-- Well-formed metrics: `public_metrics` absent or an object whose four
counter fields, when present, are numbers or bools. -/
def metricsWF (t : J) : Bool :=
  match (t.jGet "public_metrics").getD (J.jobj []) with
  | J.jobj f =>
      ["like_count", "retweet_count", "reply_count", "impression_count"].all
        (fun k => match ((J.jobj f).jGet k).getD (J.jnum 0) with
          | J.jnum _ => true
          | J.jbool _ => true
          | _ => false)
  | _ => false

/-- Sum of one metric over a list of posts. -/
def sumMetric (ts : List J) (k : String) : Int :=
  (ts.map (fun t => metricVal t k)).sum

end Formatter

/-- Spec-side plain retweet, following the spec's words: a `retweeted`-type
reference AND no other content (no article, no long-form note, no media
attachments). -/
def specIsPlainRetweetB (t : J) : Bool :=
  Formatter.hasRetweetedRefB t &&
    !(J.jTruthy ((t.jGet "article").getD J.jnull)) &&
    !(J.jTruthy ((t.jGet "note_tweet").getD J.jnull)) &&
    !(J.jTruthy ((t.jGet "attachments").getD J.jnull))

theorem anyRetweeted_eq_any (rs : List J)
    (h : ∀ r ∈ rs, (match r with
      | J.jobj _ => (r.jGet "type").isSome
      | _ => false) = true) :
    Formatter.anyRetweeted rs =
      some (rs.any (fun r => decide (r.jGet "type" = some (J.jstr "retweeted")))) := by
  induction rs with
  | nil => rfl
  | cons r rest ih =>
    have hr := h r (List.mem_cons_self r rest)
    cases r with
    | jobj f =>
      obtain ⟨v, hv⟩ := Option.isSome_iff_exists.mp hr
      show (do
        let rt ← (J.jobj f).jGet "type"
        if rt = J.jstr "retweeted" then some true
        else Formatter.anyRetweeted rest) = _
      rw [hv]
      simp only [Option.bind_eq_bind, Option.some_bind]
      by_cases hv2 : v = J.jstr "retweeted"
      · rw [if_pos hv2]
        simp [List.any_cons, hv, hv2]
      · rw [if_neg hv2, ih (fun x hx => h x (List.mem_cons_of_mem _ hx))]
        simp [List.any_cons, hv, hv2]
    | jnull => exact Bool.noConfusion hr
    | jbool b => exact Bool.noConfusion hr
    | jnum n => exact Bool.noConfusion hr
    | jstr s => exact Bool.noConfusion hr
    | jarr l => exact Bool.noConfusion hr

theorem isPlainRetweet_eq (t : J) (h : Formatter.refsWF t = true) :
    Formatter.isPlainRetweet t = some (Formatter.hasRetweetedRefB t) := by
  unfold Formatter.isPlainRetweet
  simp only [Formatter.refsWF] at h
  simp only [Formatter.hasRetweetedRefB]
  cases hg : t.jGet "referenced_tweets" with
  | none => rfl
  | some v =>
    rw [hg] at h
    cases v with
    | jarr rs =>
      show (do
        let refs ← iterVal (J.jarr rs)
        Formatter.anyRetweeted refs) = _
      simp only [iterVal, Option.bind_eq_bind, Option.some_bind]
      exact anyRetweeted_eq_any rs (List.all_eq_true.mp h)
    | jnull => exact Bool.noConfusion h
    | jbool b => exact Bool.noConfusion h
    | jnum n => exact Bool.noConfusion h
    | jstr s => exact Bool.noConfusion h
    | jobj f => exact Bool.noConfusion h

theorem asNum_getD_metric (m : J) (k : String)
    (h : (match (m.jGet k).getD (J.jnum 0) with
      | J.jnum _ => true
      | J.jbool _ => true
      | _ => false) = true) :
    asNum ((m.jGet k).getD (J.jnum 0)) =
      some (match (m.jGet k).getD (J.jnum 0) with
        | J.jnum n => n
        | J.jbool b => if b then 1 else 0
        | _ => 0) := by
  cases hv : (m.jGet k).getD (J.jnum 0) with
  | jnum n => rfl
  | jbool b => rfl
  | jnull => rw [hv] at h; exact Bool.noConfusion h
  | jstr s => rw [hv] at h; exact Bool.noConfusion h
  | jarr l => rw [hv] at h; exact Bool.noConfusion h
  | jobj f => rw [hv] at h; exact Bool.noConfusion h

theorem metricsOf_eq (t : J) (h : Formatter.metricsWF t = true) :
    Formatter.metricsOf t =
      some (Formatter.metricVal t "like_count", Formatter.metricVal t "retweet_count",
        Formatter.metricVal t "reply_count", Formatter.metricVal t "impression_count") := by
  unfold Formatter.metricsOf
  simp only [Formatter.metricsWF] at h
  simp only [Formatter.metricVal]
  cases hm : (t.jGet "public_metrics").getD (J.jobj []) with
  | jobj f =>
    rw [hm] at h
    simp only [List.all_cons, List.all_nil, Bool.and_true, Bool.and_eq_true] at h
    obtain ⟨h1, h2, h3, h4⟩ := h
    rw [asNum_getD_metric (J.jobj f) "like_count" h1]
    simp only [Option.bind_eq_bind, Option.some_bind]
    rw [asNum_getD_metric (J.jobj f) "retweet_count" h2]
    simp only [Option.bind_eq_bind, Option.some_bind]
    rw [asNum_getD_metric (J.jobj f) "reply_count" h3]
    simp only [Option.bind_eq_bind, Option.some_bind]
    rw [asNum_getD_metric (J.jobj f) "impression_count" h4]
    simp only [Option.bind_eq_bind, Option.some_bind, Option.pure_def]
  | jnull => rw [hm] at h; exact Bool.noConfusion h
  | jbool b => rw [hm] at h; exact Bool.noConfusion h
  | jnum n => rw [hm] at h; exact Bool.noConfusion h
  | jstr s => rw [hm] at h; exact Bool.noConfusion h
  | jarr l => rw [hm] at h; exact Bool.noConfusion h

theorem ownPosts_eq (ts : List J) (h : ∀ t ∈ ts, Formatter.refsWF t = true) :
    Formatter.ownPosts ts =
      some (ts.filter (fun t => !Formatter.hasRetweetedRefB t)) := by
  induction ts with
  | nil => rfl
  | cons t rest ih =>
    show (do
      let b ← Formatter.isPlainRetweet t
      let r ← Formatter.ownPosts rest
      pure (if b then r else t :: r)) = _
    rw [isPlainRetweet_eq t (h t (List.mem_cons_self t rest)),
      ih (fun x hx => h x (List.mem_cons_of_mem _ hx))]
    simp only [Option.bind_eq_bind, Option.some_bind, Option.pure_def]
    cases hb : Formatter.hasRetweetedRefB t <;>
      simp [List.filter_cons, hb]

theorem addMetrics_eq (acc : Int × Int × Int × Int) (t : J)
    (h : Formatter.metricsWF t = true) :
    Formatter.addMetrics acc t =
      some (acc.1 + Formatter.metricVal t "like_count",
        acc.2.1 + Formatter.metricVal t "retweet_count",
        acc.2.2.1 + Formatter.metricVal t "reply_count",
        acc.2.2.2 + Formatter.metricVal t "impression_count") := by
  unfold Formatter.addMetrics
  rw [metricsOf_eq t h]
  simp only [Option.bind_eq_bind, Option.some_bind, Option.pure_def]

theorem foldl_addMetrics (ts : List J) (h : ∀ t ∈ ts, Formatter.metricsWF t = true)
    (acc : Int × Int × Int × Int) :
    ts.foldlM Formatter.addMetrics acc =
      some (acc.1 + Formatter.sumMetric ts "like_count",
        acc.2.1 + Formatter.sumMetric ts "retweet_count",
        acc.2.2.1 + Formatter.sumMetric ts "reply_count",
        acc.2.2.2 + Formatter.sumMetric ts "impression_count") := by
  induction ts generalizing acc with
  | nil => simp [Formatter.sumMetric]
  | cons t rest ih =>
    rw [List.foldlM_cons, addMetrics_eq acc t (h t (List.mem_cons_self t rest))]
    simp only [Option.bind_eq_bind, Option.some_bind]
    rw [ih (fun x hx => h x (List.mem_cons_of_mem _ hx))]
    simp [Formatter.sumMetric, add_assoc]

/-- A normal post with 5 likes. -/
def exN : J := J.jobj [("id", J.jstr "n1"), ("text", J.jstr "hello"),
  ("public_metrics", J.jobj [("like_count", J.jnum 5)])]

/-- A plain retweet: a `retweeted`-type reference and nothing else. -/
def exRT : J := J.jobj [("id", J.jstr "r1"), ("text", J.jstr "RT @x: y"),
  ("referenced_tweets", J.jarr [J.jobj [("type", J.jstr "retweeted"), ("id", J.jstr "x")]])]

/-- A retweet that ALSO carries other content: an article, and 3 likes. -/
def exArt : J := J.jobj [("id", J.jstr "a1"), ("text", J.jstr "RT @y: z"),
  ("referenced_tweets", J.jarr [J.jobj [("type", J.jstr "retweeted"), ("id", J.jstr "y")]]),
  ("article", J.jobj [("title", J.jstr "T")]),
  ("public_metrics", J.jobj [("like_count", J.jnum 3)])]

/-- C8 counterexample.  `exArt` has a `retweeted`-type reference but also an
article, so under the claim's definition of plain retweet ("a retweeted-type
reference and no other content") it is not one and its 3 likes should count.
The code's `_is_plain_retweet` looks only at the references, so the day
`[exN, exArt]` reports Posts=1 and Like=5, not the Posts=2, Like=8 the claim
requires. -/
theorem c8_analytics_counterexample :
    specIsPlainRetweetB exArt = false ∧
    Formatter.formatAnalytics [exN, exArt] =
      some (Formatter.analyticsString 1 5 0 0 0 (Formatter.costMilli 2)) ∧
    Formatter.analyticsString 1 5 0 0 0 (Formatter.costMilli 2) ≠
      Formatter.analyticsString 2 8 0 0 0 (Formatter.costMilli 2) :=
  ⟨by decide, by decide, by decide⟩

/-- C8 (amended).  Posts that carry a `retweeted`-type reference — regardless
of other content — are excluded: over any day whose posts have well-formed
reference lists and metrics, the analytics block reports Posts as the count
of posts without such a reference, sums the four counters over exactly those
posts (missing fields as zero), and prices the cost at the full post count
including retweets times the fixed per-post rate. -/
theorem c8_analytics_amended (tweets : List J)
    (hr : ∀ t ∈ tweets, Formatter.refsWF t = true)
    (hm : ∀ t ∈ tweets, Formatter.metricsWF t = true) :
    Formatter.formatAnalytics tweets =
      some (Formatter.analyticsString
        (tweets.filter (fun t => !Formatter.hasRetweetedRefB t)).length
        (Formatter.sumMetric (tweets.filter (fun t => !Formatter.hasRetweetedRefB t)) "like_count")
        (Formatter.sumMetric (tweets.filter (fun t => !Formatter.hasRetweetedRefB t)) "retweet_count")
        (Formatter.sumMetric (tweets.filter (fun t => !Formatter.hasRetweetedRefB t)) "reply_count")
        (Formatter.sumMetric (tweets.filter (fun t => !Formatter.hasRetweetedRefB t)) "impression_count")
        (Formatter.costMilli tweets.length)) := by
  unfold Formatter.formatAnalytics
  rw [ownPosts_eq tweets hr]
  simp only [Option.bind_eq_bind, Option.some_bind]
  rw [foldl_addMetrics _ (fun t ht => hm t (List.mem_of_mem_filter ht))]
  simp only [Option.bind_eq_bind, Option.some_bind, Option.pure_def, zero_add]

/-- Witness for `c8_analytics_amended` on the spec's own example day: one
normal post with 5 likes plus one plain retweet. -/
theorem c8_analytics_amended_witness :
    Formatter.formatAnalytics [exN, exRT] =
      some (Formatter.analyticsString
        (([exN, exRT].filter (fun t => !Formatter.hasRetweetedRefB t)).length)
        (Formatter.sumMetric ([exN, exRT].filter (fun t => !Formatter.hasRetweetedRefB t)) "like_count")
        (Formatter.sumMetric ([exN, exRT].filter (fun t => !Formatter.hasRetweetedRefB t)) "retweet_count")
        (Formatter.sumMetric ([exN, exRT].filter (fun t => !Formatter.hasRetweetedRefB t)) "reply_count")
        (Formatter.sumMetric ([exN, exRT].filter (fun t => !Formatter.hasRetweetedRefB t)) "impression_count")
        (Formatter.costMilli ([exN, exRT] : List J).length)) :=
  c8_analytics_amended [exN, exRT] (by decide) (by decide)

/-! ## Claim C9: reference-map building mutates the bundle -/

/-- `isinstance(x, dict)`-style shape test. -/
def J.isObj : J → Bool
  | J.jobj _ => true
  | _ => false

namespace Formatter

/-- What the tweet loop of `_build_ref_map` needs of one record to run
without raising: an object, a hashable author key, and (after the mutation)
a present, hashable `id`. -/
def refTweetWF (um : List (J × J)) (t : J) : Bool :=
  J.isObj t && J.hashable ((t.jGet "author_id").getD (J.jstr "")) &&
    (match (augTweet um t).jGet "id" with
     | some tid => J.hashable tid
     | none => false)

/-- The reference map `_build_ref_map` produces, described over the mutated
records: each augmented tweet keyed by its `id`, in order. -/
def refMapOf (um : List (J × J)) (ts : List J) : List (J × J) :=
  ts.foldl (fun m t =>
    match (augTweet um t).jGet "id" with
    | some tid => assocSet m tid (augTweet um t)
    | none => m) []

end Formatter

theorem jGet_jobj (g : List (String × J)) (k : String) :
    J.jGet (J.jobj g) k = assocGet g k := rfl

theorem refFoldStep_eq (um : List (J × J)) (acc : List (J × J) × List J)
    (t : J) (hwf : Formatter.refTweetWF um t = true) :
    ∃ tid, (Formatter.augTweet um t).jGet "id" = some tid ∧
      Formatter.refFoldStep um acc t =
        some (assocSet acc.1 tid (Formatter.augTweet um t),
          acc.2 ++ [Formatter.augTweet um t]) := by
  simp only [Formatter.refTweetWF, Bool.and_eq_true] at hwf
  obtain ⟨⟨hobj, hak⟩, hid⟩ := hwf
  cases t with
  | jobj g =>
    cases htid : (Formatter.augTweet um (J.jobj g)).jGet "id" with
    | some tid =>
      refine ⟨tid, rfl, ?_⟩
      show (do
        if J.hashable (((J.jobj g).jGet "author_id").getD (J.jstr "")) then do
          let t2 := Formatter.augTweet um (J.jobj g)
          let tid2 ← t2.jGet "id"
          if J.hashable tid2 then
            pure (assocSet acc.1 tid2 t2, acc.2 ++ [t2])
          else none
        else none) = _
      rw [if_pos hak]
      show (do
        let tid2 ← (Formatter.augTweet um (J.jobj g)).jGet "id"
        if J.hashable tid2 then
          pure (assocSet acc.1 tid2 (Formatter.augTweet um (J.jobj g)),
            acc.2 ++ [Formatter.augTweet um (J.jobj g)])
        else none) = _
      rw [htid]
      simp only [Option.bind_eq_bind, Option.some_bind]
      rw [htid] at hid
      rw [if_pos hid]
      rfl
    | none => rw [htid] at hid; exact Bool.noConfusion hid
  | jnull => exact Bool.noConfusion hobj
  | jbool b => exact Bool.noConfusion hobj
  | jnum n => exact Bool.noConfusion hobj
  | jstr s => exact Bool.noConfusion hobj
  | jarr l => exact Bool.noConfusion hobj

theorem refFold_eq (um : List (J × J)) (ts : List J)
    (hwf : ∀ t ∈ ts, Formatter.refTweetWF um t = true)
    (acc : List (J × J) × List J) :
    ts.foldlM (Formatter.refFoldStep um) acc =
      some (ts.foldl (fun m t =>
          match (Formatter.augTweet um t).jGet "id" with
          | some tid => assocSet m tid (Formatter.augTweet um t)
          | none => m) acc.1,
        acc.2 ++ ts.map (Formatter.augTweet um)) := by
  induction ts generalizing acc with
  | nil => simp
  | cons t rest ih =>
    obtain ⟨tid, htid, hstep⟩ :=
      refFoldStep_eq um acc t (hwf t (List.mem_cons_self t rest))
    rw [List.foldlM_cons, hstep]
    simp only [Option.bind_eq_bind, Option.some_bind]
    rw [ih (fun x hx => hwf x (List.mem_cons_of_mem _ hx))]
    simp only [List.foldl_cons, List.map_cons, htid, List.append_assoc,
      List.singleton_append]

/-- A user record for the C9 bundle. -/
def userU2 : J := J.jobj [("id", J.jstr "u1"), ("username", J.jstr "alice")]

/-- A referenced-tweet record, before `_build_ref_map` runs. -/
def refT9 : J := J.jobj [("id", J.jstr "9"), ("author_id", J.jstr "u1"),
  ("text", J.jstr "hi")]

/-- The includes bundle handed to `_build_ref_map`. -/
def incC9 : J := J.jobj [("users", J.jarr [userU2]), ("tweets", J.jarr [refT9])]

/-- The same record after the call: `_author_username` has been attached. -/
def augRefT9 : J := J.jobj [("id", J.jstr "9"), ("author_id", J.jstr "u1"),
  ("text", J.jstr "hi"), ("_author_username", J.jstr "alice")]

/-- The bundle after the call. -/
def incC9After : J := J.jobj [("users", J.jarr [userU2]), ("tweets", J.jarr [augRefT9])]

/-- C9 counterexample.  `_build_ref_map` is not pure: after the call the
input bundle's tweet record carries the `_author_username` augmentation it
did not have before, and the returned map's entry is that same mutated
record — the bundle is changed, not left intact. -/
theorem c9_refmap_purity_counterexample :
    Formatter.buildRefMap incC9 = some ([(J.jstr "9", augRefT9)], incC9After) ∧
    incC9After ≠ incC9 ∧
    refT9.jGet "_author_username" = none ∧
    augRefT9.jGet "_author_username" = some (J.jstr "alice") :=
  ⟨by decide, by decide, by decide, by decide⟩

/-- C9 (amended).  What `_build_ref_map` actually does: on a bundle whose
`users` and `tweets` are lists, with a user map `um` built from the users,
and every tweet record fit for the loop, it returns the map keying each
MUTATED record by its id, and the bundle itself now holds exactly the
mutated records in place of the originals — each carrying
`_author_username` resolved through `um` (empty string if unknown). -/
theorem c9_refmap_mutation_amended (f : List (String × J)) (users ts : List J)
    (um : List (J × J))
    (hu : J.jGet (J.jobj f) "users" = some (J.jarr users))
    (ht : J.jGet (J.jobj f) "tweets" = some (J.jarr ts))
    (hum : Formatter.userMapOf users = some um)
    (hwf : ∀ t ∈ ts, Formatter.refTweetWF um t = true) :
    Formatter.buildRefMap (J.jobj f) =
      some (Formatter.refMapOf um ts,
        (J.jobj f).jSet "tweets" (J.jarr (ts.map (Formatter.augTweet um)))) ∧
    ∀ t ∈ ts, (Formatter.augTweet um t).jGet "_author_username" =
      some ((assocGet um ((t.jGet "author_id").getD (J.jstr ""))).getD (J.jstr "")) := by
  constructor
  · show (do
      let users2 ← iterList ((J.jobj f).jGet "users")
      let userMap ← Formatter.userMapOf users2
      let tweets2 ← iterList ((J.jobj f).jGet "tweets")
      let r ← tweets2.foldlM (Formatter.refFoldStep userMap) ([], [])
      let newIncludes := (match (J.jobj f).jGet "tweets" with
        | some (J.jarr _) => (J.jobj f).jSet "tweets" (J.jarr r.2)
        | _ => J.jobj f)
      pure (r.1, newIncludes)) = _
    rw [hu, ht]
    simp only [iterList, iterVal, Option.bind_eq_bind, Option.some_bind]
    rw [hum]
    simp only [Option.some_bind]
    rw [refFold_eq um ts hwf ([], [])]
    simp only [Option.some_bind, List.nil_append]
    rfl
  · intro t htm
    have hwt := hwf t htm
    simp only [Formatter.refTweetWF, Bool.and_eq_true] at hwt
    obtain ⟨⟨hobj, hak⟩, hid⟩ := hwt
    cases t with
    | jobj g =>
      show assocGet (assocSet g "_author_username"
        ((assocGet um (((J.jobj g).jGet "author_id").getD (J.jstr ""))).getD (J.jstr "")))
          "_author_username" = _
      rw [assocGet_assocSet]
      rw [if_pos rfl]
    | jnull => exact Bool.noConfusion hobj
    | jbool b => exact Bool.noConfusion hobj
    | jnum n => exact Bool.noConfusion hobj
    | jstr s => exact Bool.noConfusion hobj
    | jarr l => exact Bool.noConfusion hobj

/-- Witness for `c9_refmap_mutation_amended` on the concrete bundle. -/
theorem c9_refmap_mutation_amended_witness :
    Formatter.buildRefMap (J.jobj [("users", J.jarr [userU2]), ("tweets", J.jarr [refT9])]) =
      some (Formatter.refMapOf [(J.jstr "u1", J.jstr "alice")] [refT9],
        (J.jobj [("users", J.jarr [userU2]), ("tweets", J.jarr [refT9])]).jSet "tweets"
          (J.jarr ([refT9].map (Formatter.augTweet [(J.jstr "u1", J.jstr "alice")])))) ∧
    ∀ t ∈ [refT9], (Formatter.augTweet [(J.jstr "u1", J.jstr "alice")] t).jGet "_author_username" =
      some ((assocGet [(J.jstr "u1", J.jstr "alice")]
        ((t.jGet "author_id").getD (J.jstr ""))).getD (J.jstr "")) :=
  c9_refmap_mutation_amended [("users", J.jarr [userU2]), ("tweets", J.jarr [refT9])]
    [userU2] [refT9] [(J.jstr "u1", J.jstr "alice")]
    (by decide) (by decide) (by decide) (by decide)
